import Mathlib

/-!
Verification of the DynLibUtils pattern-scanning and vtable-hooking library.

The definitions below are a shallow embedding of the C++ sources:
  * `src/src/module.cpp` — `FindPatternScalar`, `FindPatternSSE2`,
    `FindPatternAVX2`, `CModule::FindPattern`, `CModule::PatternToMaskedBytes`;
  * `src/include/dynlibutils/module.hpp` — `ProcessStringPattern`,
    `ParsePattern`, `CCache`, `CAssemblyModule::FindPattern`,
    `CAssemblyModule::FindAllPatterns`;
  * `src/include/dynlibutils/memaddr.hpp` — `CMemory::ResolveRelativeAddress`,
    `CMemory::FollowNearCall`;
  * `src/include/dynlibutils/virtual.hpp` — `GetVirtualIndex` (Itanium branch);
  * `src/include/dynlibutils/vthook.hpp` — `CVTHook::Hook`, `CVTHook::Unhook`,
    `CVTMHookBase::AddHook`, `CVTFMHook::AddHook`.

Machine addresses are modelled as unbounded integers (`Int`); no pointer
wrap-around occurs in the modelled regime.  Byte memory is a function from
addresses to byte values.  The invalid address `DYNLIB_INVALID_MEMORY`
(a null `CMemory`) is modelled by `Option.none` for functions returning a
possibly-invalid address, and by the address `0` where the C++ keeps the raw
null value (`CAssemblyModule::FindAllPatterns` iteration state).
-/

namespace DynLibUtils

/-- Byte memory of the process: the byte value stored at each address. -/
abbrev Mem := Int → Nat

/-- Word memory of the process: the machine word (pointer) stored at each
word-aligned slot address.  Used by the vtable hook model. -/
abbrev WMem := Int → Int

/-- One linear scan: starting at `p`, try `fuel` consecutive positions and
return the first one where `matchAt` holds.  This models the C++ loops of the
form `for (; pData <= pEnd; ++pData)` with `fuel = pEnd + 1 - pData`. -/
def scanLoop (matchAt : Int → Bool) : Int → Nat → Option Int
  | _, 0 => none
  | p, Nat.succ fuel => if matchAt p then some p else scanLoop matchAt (p + 1) fuel

/-- Inner loop of `FindPatternScalar` (src/src/module.cpp): position `p`
matches unless some `i < maskLen` has `mask[i] == 'x'` and
`pattern[i] != pData[i]`. -/
def scalarMatchAt (mem : Mem) (pattern : List Nat) (mask : List Char) (maskLen : Nat)
    (p : Int) : Bool :=
  (List.range maskLen).all fun i =>
    ! (mask.getD i ' ' == 'x' && pattern.getD i 0 != mem (p + (i : Int)))

/-- Model of `FindPatternScalar` (src/src/module.cpp, lines 170-186). -/
def FindPatternScalar (mem : Mem) (pData pEnd : Int) (pattern : List Nat)
    (mask : List Char) (maskLen : Nat) : Option Int :=
  scanLoop (scalarMatchAt mem pattern mask maskLen) pData (pEnd + 1 - pData).toNat

/-- Byte `k` of a SIMD register obtained by `memcpy`ing the first `maskLen`
bytes of `a` into a zeroed register. -/
def vecByte (a : List Nat) (maskLen k : Nat) : Nat :=
  if k < maskLen then a.getD k 0 else 0

/-- Shared per-position test of the SIMD scanners.  The C++ computes
`cmp = cmpeq(data & maskVec, pattern & maskVec)` bytewise, takes
`matchMask = movemask(cmp)` (bit `k` of `matchMask` is set exactly when byte
`k` compared equal) and accepts when `(matchMask & expectedMask) ==
expectedMask`, i.e. when every byte whose bit is set in `expectedMask`
compared equal. -/
def simdMatchAt (mem : Mem) (fp bm : List Nat) (maskLen width expectedMask : Nat)
    (p : Int) : Bool :=
  (List.range width).all fun k =>
    ! expectedMask.testBit k ||
      ((mem (p + (k : Int)) &&& vecByte bm maskLen k) ==
        (vecByte fp maskLen k &&& vecByte bm maskLen k))

/-- Model of `FindPatternSSE2` (src/src/module.cpp, lines 101-132).  `fp` and
`bm` are the caller-prepared filtered pattern and binary mask. -/
def FindPatternSSE2 (mem : Mem) (pData pEnd : Int) (fp bm : List Nat)
    (maskLen : Nat) : Option Int :=
  let simdEnd : Int := pEnd - 16 + (maskLen : Int)
  let expectedMask : Nat := if 16 ≤ maskLen then 0xFFFF else 2 ^ maskLen - 1
  scanLoop (simdMatchAt mem fp bm maskLen 16 expectedMask) pData
    (simdEnd + 1 - pData).toNat

/-- Model of `FindPatternAVX2` (src/src/module.cpp, lines 136-167). -/
def FindPatternAVX2 (mem : Mem) (pData pEnd : Int) (fp bm : List Nat)
    (maskLen : Nat) : Option Int :=
  let simdEnd : Int := pEnd - 32 + (maskLen : Int)
  let expectedMask : Nat := if 32 ≤ maskLen then 0xFFFFFFFF else 2 ^ maskLen - 1
  scanLoop (simdMatchAt mem fp bm maskLen 32 expectedMask) pData
    (simdEnd + 1 - pData).toNat

/-- Little-endian 32-bit unsigned value formed from the four bytes at `a`. -/
def readUInt32LE (mem : Mem) (a : Int) : Nat :=
  mem a + 256 * mem (a + 1) + 65536 * mem (a + 2) + 16777216 * mem (a + 3)

/-- The typed load `*reinterpret_cast<std::int32_t*>(a)`: the 32-bit
little-endian value at `a` interpreted as a two's-complement signed 32-bit
integer. -/
def readInt32 (mem : Mem) (a : Int) : Int :=
  let v : Nat := readUInt32LE mem a % 2 ^ 32
  if v < 2 ^ 31 then (v : Int) else (v : Int) - 2 ^ 32

/-- Model of `CMemory::ResolveRelativeAddress`
(src/include/dynlibutils/memaddr.hpp, lines 173-180). -/
def ResolveRelativeAddress (mem : Mem) (addr registerOffset nextInstructionOffset : Int) :
    Int :=
  let skipRegister : Int := addr + registerOffset
  let nextInstruction : Int := addr + nextInstructionOffset
  let relativeAddress : Int := readInt32 mem skipRegister
  nextInstruction + relativeAddress

/-- Model of `CMemory::FollowNearCall`
(src/include/dynlibutils/memaddr.hpp, line 170); the source's default
arguments are `opcodeOffset = 0x1`, `nextInstructionOffset = 0x5`. -/
def FollowNearCall (mem : Mem) (addr opcodeOffset nextInstructionOffset : Int) : Int :=
  ResolveRelativeAddress mem addr opcodeOffset nextInstructionOffset

/-- Sign extension of a 32-bit value, written after the spec's words: the
value itself below `2^31`, otherwise the value minus `2^32`. -/
def signExtend32 (v : Nat) : Int :=
  if v < 2 ^ 31 then (v : Int) else (v : Int) - 2 ^ 32

/-- Value of `DYNLIB_INVALID_VCALL` (src/include/dynlibutils/virtual.hpp). -/
def DYNLIB_INVALID_VCALL : Int := -1

/-- Model of the Itanium (`__GNUG__`/`__clang__`) branch of `GetVirtualIndex`
(src/include/dynlibutils/virtual.hpp, line 123):
`return (u.pmf.addr - 1u) / sizeof(void*);`.
By the usual arithmetic conversions `addr - 1u` is computed as an unsigned
64-bit value and the division is unsigned; `sizeof(void*) = 8` on the
modelled 64-bit target.  The quotient is below `2^61`, so converting it back
to `ptrdiff_t` is the identity. -/
def getVirtualIndexItanium (addr : Int) : Int :=
  ((addr - 1).emod (2 ^ 64)) / 8

/-- State of a `CVTHook` (src/include/dynlibutils/vthook.hpp): the address of
the hooked vtable slot (the inherited `CMemory`, null when not hooked) and
the saved original function pointer `m_pOriginalFn`. -/
structure CVTHook where
  slot : Int
  originalFn : Int
deriving DecidableEq, Repr

/-- A default-constructed `CVTHook`: null slot pointer, null original. -/
def CVTHook.init : CVTHook := ⟨0, 0⟩

/-- Model of `CVTHook::IsHooked`: the stored slot pointer is non-null. -/
def CVTHook.IsHooked (h : CVTHook) : Bool := h.slot != 0

/-- Address of vtable entry `nIndex`: `&pVTable.GetMethod<void*>(nIndex)` is
`m_pVTFs + nIndex` in units of `sizeof(void*) = 8`. -/
def vtSlotAddr (pVTable nIndex : Int) : Int := pVTable + 8 * nIndex

/-- Model of `CVTHook::Hook` (src/include/dynlibutils/vthook.hpp, lines
176-185): record the slot address, save the pointer currently stored there,
then overwrite the slot with `fn` (`HookImpl`). -/
def CVTHook.Hook (mem : WMem) (_h : CVTHook) (pVTable nIndex fn : Int) :
    WMem × CVTHook :=
  let slot := vtSlotAddr pVTable nIndex
  let orig := mem slot
  (fun a => if a = slot then fn else mem a, ⟨slot, orig⟩)

/-- Model of `CVTHook::Unhook` (src/include/dynlibutils/vthook.hpp, lines
192-203): if not hooked return false; otherwise write the saved original back
to the slot (`UnhookImpl`), clear the state, return true. -/
def CVTHook.Unhook (mem : WMem) (h : CVTHook) : WMem × CVTHook × Bool :=
  if h.IsHooked then
    (fun a => if a = h.slot then h.originalFn else mem a, ⟨0, 0⟩, true)
  else
    (mem, h, false)

/-- Lookup in an association list; models `std::map::find`. -/
def lookupAssoc {β : Type} : List (Int × β) → Int → Option β
  | [], _ => none
  | (k, v) :: rest, key => if k = key then some v else lookupAssoc rest key

/-- Replacement of the value bound to a key in an association list. -/
def replaceAssoc {β : Type} : List (Int × β) → Int → β → List (Int × β)
  | [], _, _ => []
  | (k, v) :: rest, key, nv =>
    if k = key then (k, nv) :: rest else (k, v) :: replaceAssoc rest key nv

/-- Model of `CVTMHookBase::AddHook` (src/include/dynlibutils/vthook.hpp,
lines 311-318): construct a fresh element, `Hook` it onto the slot, and
insert it into the `m_storage` multimap under the key `pVTable`.  Entries
that share a key are kept in insertion order; the storage is modelled as the
list of its entries. -/
def CVTMHookBase.AddHook (mem : WMem) (storage : List (Int × CVTHook))
    (pVTable nIndex vfunc : Int) : WMem × List (Int × CVTHook) :=
  let hooked := CVTHook.Hook mem CVTHook.init pVTable nIndex vfunc
  (hooked.fst, storage ++ [(pVTable, hooked.snd)])

/-- State of a `CVTFMHook` instantiation: the process-wide callback map
`sm_vcallbacks` (callbacks are opaque identifiers) and the inherited
`CVTMHookBase::m_storage` multimap. -/
structure CVTFMHookState where
  vcallbacks : List (Int × List Nat)
  storage : List (Int × CVTHook)
deriving Repr

/-- Model of `CVTFMHook::AddHook` (src/include/dynlibutils/vthook.hpp, lines
469-501): append the callback to the list bound to `pVTable` in
`sm_vcallbacks` (creating the list when absent), then unconditionally call
`Base_t::AddHook` with the static trampoline (whose raw function-pointer
value is `trampoline`). -/
def CVTFMHook.AddHook (mem : WMem) (st : CVTFMHookState) (pVTable nIndex : Int)
    (funcCallback : Nat) (trampoline : Int) : WMem × CVTFMHookState :=
  let vcb :=
    match lookupAssoc st.vcallbacks pVTable with
    | some l => replaceAssoc st.vcallbacks pVTable (l ++ [funcCallback])
    | none => st.vcallbacks ++ [(pVTable, [funcCallback])]
  let based := CVTMHookBase.AddHook mem st.storage pVTable nIndex trampoline
  (based.fst, ⟨vcb, based.snd⟩)

/-- Number of slot-hook elements stored for a given vtable key in the
`m_storage` multimap. -/
def countSlotHooks (storage : List (Int × CVTHook)) (pVTable : Int) : Nat :=
  (storage.filter fun e => e.fst == pVTable).length

/-- A section of a loaded image: start address and size.  Models `Section_t`
of src/include/dynlibutils/module.hpp (the inherited `CMemory` base address
plus `m_nSectionSize`); the section name plays no role in the claims.  The
`Section` struct used by `CModule::FindPattern` in src/src/module.cpp has the
same two fields `base` and `size`. -/
structure Section_t where
  base : Int
  size : Nat
deriving DecidableEq, Repr

/-- Validity of a section.  For `Section_t` this is the inherited
`CMemory::IsValid` (non-null base).  For the `Section` struct of
src/src/module.cpp the boolean conversion is not among the sources; the spec
states `valid ⇔ base ≠ 0`, which coincides. -/
def Section_t.IsValid (s : Section_t) : Bool := s.base != 0

/-- Model of `CCache` (src/include/dynlibutils/module.hpp, lines 277-321):
the scan-cache key.  `m_svPattern` holds the first `svMask.size()` raw
pattern BYTES (not the mask). -/
structure CCache where
  pattern : List Nat
  start : Int
  sectionAddr : Int
  sectionSize : Nat
deriving DecidableEq, Repr

/-- The `CCache` constructor taking `(pPatternMem, nSize, pStartAddress,
pModuleSection)`: copies `nSize` pattern bytes, the start address, and the
section base and size (0 when the section pointer is null). -/
def mkCCache (pattern : List Nat) (nSize : Nat) (pStartAddress : Int)
    (pModuleSection : Option Section_t) : CCache :=
  ⟨pattern.take nSize, pStartAddress,
    match pModuleSection with
    | some s => s.base
    | none => 0,
    match pModuleSection with
    | some s => s.size
    | none => 0⟩

/-- Lookup in the scan cache `m_mapCached`, modelled as the list of its
entries (at most one entry per key). -/
def cacheLookup : List (CCache × Int) → CCache → Option Int
  | [], _ => none
  | (k, v) :: rest, key => if k = key then some v else cacheLookup rest key

/-- Map assignment `m_mapCached[key] = v`: replace the binding when the key
is present, append it otherwise. -/
def cacheInsert : List (CCache × Int) → CCache → Int → List (CCache × Int)
  | [], key, v => [(key, v)]
  | (k, w) :: rest, key, v =>
    if k = key then (k, v) :: rest else (k, w) :: cacheInsert rest key v

/-- Modelled from the spec: the body of `CAssemblyModule::GetAddress` is not
among the sources (only its declaration, src/include/dynlibutils/module.hpp
line 387).  Per spec §4.4, "on query, take a shared lock first and return a
cached hit directly": it looks the key up in the module's scan cache and
returns the invalid address on a miss. -/
def GetAddress (cache : List (CCache × Int)) (hKey : CCache) : Option Int :=
  cacheLookup cache hKey

/-- First index `j ≥ i` such that `mask[j] == 'x'`, capped at `mask.length`.
Models the "skip wildcards" inner loop of `CAssemblyModule::FindPattern`. -/
def skipWildcards (mask : List Char) : Nat → Nat → Nat
  | i, 0 => i
  | i, Nat.succ fuel =>
    if i < mask.length ∧ mask.getD i ' ' ≠ 'x' then skipWildcards mask (i + 1) fuel else i

/-- First index `j ≥ i` such that `mask[j] ≠ 'x'`, capped at `mask.length`.
Models the "count the strict run" inner loop. -/
def skipRun (mask : List Char) : Nat → Nat → Nat
  | i, 0 => i
  | i, Nat.succ fuel =>
    if i < mask.length ∧ mask.getD i ' ' = 'x' then skipRun mask (i + 1) fuel else i

/-- The run-collection loop of `CAssemblyModule::FindPattern` (lines
479-509): starting at index `i`, repeatedly skip wildcards, then record
`(start, length)` of each maximal contiguous `'x'` run. -/
def computeRunsAux (mask : List Char) : Nat → Nat → List (Nat × Nat)
  | _, 0 => []
  | i, Nat.succ fuel =>
    let s := skipWildcards mask i (mask.length - i)
    if s < mask.length then
      let e := skipRun mask s (mask.length - s)
      (s, e - s) :: computeRunsAux mask e fuel
    else []

/-- All maximal `'x'` runs of a mask, as `(offset, length)` pairs. -/
def computeRuns (mask : List Char) : List (Nat × Nat) :=
  computeRunsAux mask 0 mask.length

/-- The memcmp-over-runs test of the main scan loop: position `p` matches
when for every recorded run, the `length` bytes at `p + offset` equal the
pattern bytes at `offset`. -/
def runsMatchAt (mem : Mem) (pattern : List Nat) (runs : List (Nat × Nat))
    (p : Int) : Bool :=
  runs.all fun r =>
    (List.range r.snd).all fun j =>
      mem (p + ((r.fst + j : Nat) : Int)) == pattern.getD (r.fst + j) 0

/-- The degenerate byte-wise test of the main scan loop (taken when the run
buffer overflowed): fail iff some `j` has `mask[j] == 'x'` and
`pData[j] != pPattern[j]`. -/
def maskMatchAt (mem : Mem) (pattern : List Nat) (mask : List Char)
    (p : Int) : Bool :=
  (List.range mask.length).all fun j =>
    ! (mask.getD j ' ' == 'x' && mem (p + (j : Int)) != pattern.getD j 0)

/-- The scan body of `CAssemblyModule::FindPattern`
(src/include/dynlibutils/module.hpp, lines 442-559) after the initial cache
query: section selection and validation, bounds and start-address checks, run
precomputation (the static run buffer holds `SIZE > 0 ? SIZE : 1` entries),
the trivial no-strict-byte return, and the main scan loop.  `SIZE` is the
class template parameter.  Null `CMemory` arguments (`pStartAddress`) are the
integer 0; a null section pointer is `Option.none`. -/
def CAssemblyModule.FindPatternUncached (SIZE : Nat) (mem : Mem)
    (pattern : List Nat) (mask : List Char) (pStartAddress : Int)
    (pModuleSection pExecutableSection : Option Section_t) : Option Int :=
  match
    (match pModuleSection with
     | some s => some s
     | none => pExecutableSection) with
  | none => none
  | some pSection =>
    if !pSection.IsValid then none
    else
      let base := pSection.base
      let sectionSize := pSection.size
      let patternSize := mask.length
      let pEnd : Int := base + (sectionSize : Int) - (patternSize : Int)
      let pData? : Option Int :=
        if pStartAddress != 0 then
          if pStartAddress < base ∨ pEnd < pStartAddress then none
          else some pStartAddress
        else some base
      match pData? with
      | none => none
      | some pData =>
        let runs := computeRuns mask
        let runsUsed := if max SIZE 1 < runs.length then [] else runs
        if runsUsed.isEmpty && mask.all (fun c => c != 'x') then
          some pData
        else
          let matchAt :=
            if runsUsed.isEmpty then maskMatchAt mem pattern mask
            else runsMatchAt mem pattern runsUsed
          scanLoop matchAt pData (pEnd + 1 - pData).toNat

/-- Model of `CAssemblyModule::FindPattern`
(src/include/dynlibutils/module.hpp, lines 442-559).  The cache key is built
from the first `svMask.size()` pattern BYTES, the start address and the
section; a cache hit is returned directly, and every success return point of
the source stores the returned address under the key (the two
`m_mapCached[std::move(sKey)] = ...` sites correspond to the success case of
`FindPatternUncached`).  The mutable cache is passed in and the updated cache
is returned alongside the result. -/
def CAssemblyModule.FindPattern (SIZE : Nat) (mem : Mem) (cache : List (CCache × Int))
    (pattern : List Nat) (mask : List Char) (pStartAddress : Int)
    (pModuleSection pExecutableSection : Option Section_t) :
    Option Int × List (CCache × Int) :=
  let sKey := mkCCache pattern mask.length pStartAddress pModuleSection
  match GetAddress cache sKey with
  | some pAddr => (some pAddr, cache)
  | none =>
    match CAssemblyModule.FindPatternUncached SIZE mem pattern mask pStartAddress
        pModuleSection pExecutableSection with
    | some p => (some p, cacheInsert cache sKey p)
    | none => (none, cache)

/-- The filtered pattern the SIMD preprocessing of `CModule::FindPattern`
builds (src/src/module.cpp, lines 216-231): pattern byte where the mask is
`'x'`, zero elsewhere. -/
def filteredPatternOf (pattern : List Nat) (mask : List Char) (maskLen : Nat) : List Nat :=
  (List.range maskLen).map fun i =>
    if mask.getD i ' ' == 'x' then pattern.getD i 0 else 0

/-- The binary mask the SIMD preprocessing builds: `0xFF` where the mask is
`'x'`, zero elsewhere. -/
def binaryMaskOf (mask : List Char) (maskLen : Nat) : List Nat :=
  (List.range maskLen).map fun i =>
    if mask.getD i ' ' == 'x' then 0xFF else 0

/-- Model of `CModule::FindPattern` (src/src/module.cpp, lines 189-252).
`hasAVX2`/`hasSSE2` mirror the `__AVX2__`/`__SSE2__` build flags. -/
def CModule.FindPattern (hasAVX2 hasSSE2 : Bool) (mem : Mem) (pattern : List Nat)
    (mask : List Char) (startAddress : Int) (moduleSection : Option Section_t)
    (executableCode : Section_t) : Option Int :=
  let sect := moduleSection.getD executableCode
  if !sect.IsValid then none
  else
    let base := sect.base
    let size := sect.size
    let maskLen := mask.length
    if maskLen == 0 || decide (size < maskLen) then none
    else
      let pEnd : Int := base + (size : Int) - (maskLen : Int)
      let pData? : Option Int :=
        if startAddress != 0 then
          if base > startAddress ∨ pEnd < startAddress then none
          else some startAddress
        else some base
      match pData? with
      | none => none
      | some pData =>
        let filteredPattern := filteredPatternOf pattern mask maskLen
        let binaryMask := binaryMaskOf mask maskLen
        if hasAVX2 ∧ maskLen ≤ 32 then
          FindPatternAVX2 mem pData pEnd filteredPattern binaryMask maskLen
        else if hasSSE2 ∧ maskLen ≤ 16 then
          FindPatternSSE2 mem pData pEnd filteredPattern binaryMask maskLen
        else
          FindPatternScalar mem pData pEnd pattern mask maskLen

/-- The do-while loop body of `CAssemblyModule::FindAllPatterns`: invoke the
callback on the current iterate, then search again starting at
`pIter + m_nSize` (`OffsetFromSelfAndFind`), exiting when that search is
invalid.  `pIter` carries the raw `CMemory` value (0 when invalid).  `fuel`
bounds the recursion; the loop itself terminates because every hit is past
the previous one. -/
def FindAllPatternsAux (SIZE : Nat) (mem : Mem) (sigBytes : List Nat)
    (sigMask : List Char) (pSection : Section_t) (pExecutableSection : Option Section_t)
    (callback : Nat → Int → Bool) :
    Nat → Int → Nat → List (CCache × Int) → Nat
  | 0, _, foundCount, _ => foundCount
  | Nat.succ fuel, pIter, foundCount, cache =>
    if !callback foundCount pIter then foundCount
    else
      let next := CAssemblyModule.FindPattern SIZE mem cache sigBytes sigMask
        (pIter + (sigMask.length : Int)) (some pSection) pExecutableSection
      match next.fst with
      | some p =>
        FindAllPatternsAux SIZE mem sigBytes sigMask pSection pExecutableSection
          callback fuel p (foundCount + 1) next.snd
      | none => foundCount + 1

/-- Model of `CAssemblyModule::FindAllPatterns`
(src/include/dynlibutils/module.hpp, lines 575-605).  The signature view is
`(sigBytes, sigMask)` with `m_nSize = sigMask.length`. -/
def CAssemblyModule.FindAllPatterns (SIZE : Nat) (mem : Mem)
    (cache : List (CCache × Int)) (sigBytes : List Nat) (sigMask : List Char)
    (callback : Nat → Int → Bool) (pStartAddress : Int)
    (pModuleSection pExecutableSection : Option Section_t) (fuel : Nat) : Nat :=
  match
    (match pModuleSection with
     | some s => some s
     | none => pExecutableSection) with
  | none => 0
  | some pSection =>
    if !pSection.IsValid then 0
    else
      let pBase := pSection.base
      let pIter0 : Int := if pStartAddress != 0 then pStartAddress else pBase
      let first := CAssemblyModule.FindPattern SIZE mem cache sigBytes sigMask
        pIter0 (some pSection) pExecutableSection
      FindAllPatternsAux SIZE mem sigBytes sigMask pSection pExecutableSection
        callback fuel (first.fst.getD 0) 0 first.snd

/-- Model of the compile-time lambda `funcIsHexDigit`
(src/include/dynlibutils/module.hpp, lines 121-126). -/
def funcIsHexDigit (c : Char) : Bool :=
  (decide ('0' ≤ c) && decide (c ≤ '9')) ||
  (decide ('A' ≤ c) && decide (c ≤ 'F')) ||
  (decide ('a' ≤ c) && decide (c ≤ 'f'))

/-- Model of the compile-time lambda `funcHexCharToByte`
(src/include/dynlibutils/module.hpp, lines 128-137). -/
def funcHexCharToByte (c : Char) : Nat :=
  if '0' ≤ c ∧ c ≤ '9' then c.toNat - '0'.toNat
  else if 'A' ≤ c ∧ c ≤ 'F' then c.toNat - 'A'.toNat + 10
  else c.toNat - 'a'.toNat + 10

/-- Value of `INVALID_DYNLIB_BYTE` (src/include/dynlibutils/module.hpp). -/
def INVALID_DYNLIB_BYTE : Nat := 0xFF

/-- Model of the runtime lambda `funcGetHexByte`
(src/include/dynlibutils/module.hpp, lines 223-230). -/
def funcGetHexByte (c : Char) : Nat :=
  if '0' ≤ c ∧ c ≤ '9' then c.toNat - '0'.toNat
  else if 'a' ≤ c ∧ c ≤ 'f' then 10 + (c.toNat - 'a'.toNat)
  else if 'A' ≤ c ∧ c ≤ 'F' then 10 + (c.toNat - 'A'.toNat)
  else INVALID_DYNLIB_BYTE

/-- Read `szInput[n]`.  The C++ string literal is null-terminated, so the one
in-bounds read past the logical length yields the null character. -/
def charAt (s : List Char) (n : Nat) : Char := s.getD n (Char.ofNat 0)

/-- Model of `ProcessStringPattern` (src/include/dynlibutils/module.hpp,
lines 117-196).  The template recursion is guarded by `INDEX < nLength`, so
`fuel = nLength - INDEX` with `nLength = s.length`.  The writes
`aBytes[nIndex] / aMask[nIndex]` (followed by `nIndex++`) are modelled by
appending the `(byte, mask)` cell to the accumulator; the unused tail of the
fixed-size output arrays stays zero-initialised.  In the branches that the
source comments mark as invalid input the recursion does not continue, so
parsing stops. -/
def ProcessStringPatternAux (s : List Char) :
    Nat → Nat → List (Nat × Char) → List (Nat × Char)
  | 0, _, acc => acc
  | Nat.succ fuel, n, acc =>
    let c := charAt s n
    if c = ' ' then ProcessStringPatternAux s fuel (n + 1) acc
    else if c = '?' then
      let n1 := n + 1
      let n2 := if n1 < s.length ∧ charAt s n1 = '?' then n1 + 1 else n1
      ProcessStringPatternAux s fuel n2 (acc ++ [(0, '?')])
    else if funcIsHexDigit c then
      if n + 1 < s.length then
        if funcIsHexDigit (charAt s (n + 1)) then
          ProcessStringPatternAux s fuel (n + 2)
            (acc ++ [(funcHexCharToByte c <<< 4 ||| funcHexCharToByte (charAt s (n + 1)), 'x')])
        else acc
      else acc
    else acc

/-- The compile-time parser `ParseStringPattern`: run `ProcessStringPattern`
from index 0 with an empty output. -/
def ProcessStringPattern (s : List Char) : List (Nat × Char) :=
  ProcessStringPatternAux s s.length 0 []

/-- Model of the runtime parser `ParsePattern`
(src/include/dynlibutils/module.hpp, lines 217-275).  `N` is the template
parameter bounding `nOut`; the produced cells are accumulated in order, as in
`ProcessStringPatternAux`.  (The final `m_aMask[nOut] = '\0'` write stores
the value the zero-initialised array already holds there.)  On an invalid
hex pair the source skips one character and `continue`s, bypassing the
trailing `++n`. -/
def ParsePatternAux (N : Nat) (s : List Char) :
    Nat → Nat → List (Nat × Char) → List (Nat × Char)
  | 0, _, acc => acc
  | Nat.succ fuel, n, acc =>
    if n < s.length ∧ acc.length < N then
      if charAt s n = '?' then
        let n1 := n + 1
        let n2 := if n1 < s.length ∧ charAt s n1 = '?' then n1 + 1 else n1
        ParsePatternAux N s fuel (n2 + 1) (acc ++ [(0, '?')])
      else if n + 1 < s.length then
        let nLeft := funcGetHexByte (charAt s n)
        let nRight := funcGetHexByte (charAt s (n + 1))
        if nLeft ≠ INVALID_DYNLIB_BYTE ∧ nRight ≠ INVALID_DYNLIB_BYTE then
          ParsePatternAux N s fuel (n + 3) (acc ++ [(nLeft <<< 4 ||| nRight, 'x')])
        else ParsePatternAux N s fuel (n + 1) acc
      else ParsePatternAux N s fuel (n + 1) acc
    else acc

/-- The runtime parser `ParsePattern`: the loop advances `n` by at least one
per iteration, so `s.length + 1` iterations always suffice. -/
def ParsePattern (N : Nat) (s : List Char) : List (Nat × Char) :=
  ParsePatternAux N s (s.length + 1) 0 []

/-- Validity of one pattern token per the grammar: a wildcard `?` or `??`,
or a pair of hexadecimal digits. -/
def validToken (t : List Char) : Prop :=
  t = ['?'] ∨ t = ['?', '?'] ∨
    (t.length = 2 ∧ funcIsHexDigit (t.getD 0 ' ') = true ∧
      funcIsHexDigit (t.getD 1 ' ') = true)

instance (t : List Char) : Decidable (validToken t) := by
  unfold validToken
  infer_instance

/-- The `(byte, mask)` cell a single token denotes. -/
def tokenSem (t : List Char) : Nat × Char :=
  match t with
  | [c1, c2] =>
    if c1 = '?' then (0, '?')
    else (funcHexCharToByte c1 <<< 4 ||| funcHexCharToByte c2, 'x')
  | _ => (0, '?')

/-- A pattern source string accepted by the grammar: its tokens joined by
single space characters. -/
def renderTokens (toks : List (List Char)) : List Char :=
  List.intercalate [' '] toks

/-- The match condition the spec states for a position `p`: every pattern
index is a wildcard or agrees with the byte in memory. -/
def specMatch (mem : Mem) (bytes : List Nat) (mask : List Char) (p : Int) : Prop :=
  ∀ i < mask.length, mask.getD i ' ' = '?' ∨ bytes.getD i 0 = mem (p + (i : Int))

instance (mem : Mem) (bytes : List Nat) (mask : List Char) (p : Int) :
    Decidable (specMatch mem bytes mask p) := by
  unfold specMatch
  infer_instance

/-- Section contents of the spec's byte-scan scenario (§8): thirteen bytes at
base `0x10000`. -/
def specMem : Mem := fun a =>
  if a = 65536 then 0xDE else if a = 65537 then 0xAD else if a = 65538 then 0xBE
  else if a = 65539 then 0xEF else if a = 65540 then 0x90 else if a = 65541 then 0x90
  else if a = 65542 then 0x48 else if a = 65543 then 0x8B else if a = 65544 then 0x05
  else if a = 65545 then 0x10 else 0

/-- Parsed bytes of the scenario pattern `"48 8B 05 ?? ?? ?? ??"`. -/
def specPat : List Nat := [0x48, 0x8B, 0x05, 0, 0, 0, 0]

/-- Parsed mask of the scenario pattern `"48 8B 05 ?? ?? ?? ??"`. -/
def specMask : List Char := ['x', 'x', 'x', '?', '?', '?', '?']

/-- The scenario section: base `0x10000`, size 13. -/
def specSect : Section_t := ⟨65536, 13⟩

/-- Memory fixture for the follow-near-call scenario: `E8 10 00 00 00` at
address 4096. -/
def callMem : Mem := fun a => if a = 4096 then 0xE8 else if a = 4097 then 0x10 else 0

theorem scanLoop_some_iff (f : Int → Bool) (p : Int) (n : Nat) (q : Int) :
    scanLoop f p n = some q ↔
      p ≤ q ∧ q < p + (n : Int) ∧ f q = true ∧ ∀ r, p ≤ r → r < q → f r = false := by
  induction n generalizing p with
  | zero =>
    constructor
    · intro h
      exact absurd h (by simp [scanLoop])
    · rintro ⟨h1, h2, -⟩
      exfalso
      push_cast at h2
      omega
  | succ n ih =>
    simp only [scanLoop]
    by_cases hf : f p = true
    · rw [if_pos hf]
      simp only [Option.some.injEq]
      constructor
      · rintro rfl
        refine ⟨le_refl _, by push_cast; omega, hf, ?_⟩
        intro r h1 h2
        exact absurd h1 (by omega)
      · rintro ⟨h1, _, hq, hmin⟩
        rcases eq_or_lt_of_le h1 with h | h
        · exact h
        · rw [hmin p (le_refl p) h] at hf
          exact absurd hf (by simp)
    · have hf2 : f p = false := by simpa using hf
      rw [if_neg hf, ih]
      constructor
      · rintro ⟨h1, h2, hq, hmin⟩
        refine ⟨by omega, by push_cast at h2 ⊢; omega, hq, ?_⟩
        intro r hr1 hr2
        rcases eq_or_lt_of_le hr1 with h | h
        · rw [← h]
          exact hf2
        · exact hmin r (by omega) hr2
      · rintro ⟨h1, h2, hq, hmin⟩
        have hpq : p ≠ q := by
          rintro rfl
          rw [hq] at hf2
          exact absurd hf2 (by simp)
        refine ⟨by omega, by push_cast at h2 ⊢; omega, hq, ?_⟩
        intro r hr1 hr2
        exact hmin r (by omega) hr2

theorem scanLoop_none_iff (f : Int → Bool) (p : Int) (n : Nat) :
    scanLoop f p n = none ↔ ∀ r, p ≤ r → r < p + (n : Int) → f r = false := by
  induction n generalizing p with
  | zero =>
    constructor
    · intro _ r h1 h2
      exfalso
      push_cast at h2
      omega
    · intro _
      rfl
  | succ n ih =>
    simp only [scanLoop]
    by_cases hf : f p = true
    · rw [if_pos hf]
      constructor
      · intro h
        exact absurd h (by simp)
      · intro h
        have hp := h p (le_refl p) (by push_cast; omega)
        rw [hf] at hp
        exact absurd hp (by simp)
    · have hf2 : f p = false := by simpa using hf
      rw [if_neg hf, ih]
      constructor
      · intro h r hr1 hr2
        rcases eq_or_lt_of_le hr1 with he | hlt
        · rw [← he]
          exact hf2
        · exact h r (by omega) (by push_cast at hr2 ⊢; omega)
      · intro h r hr1 hr2
        exact h r (by omega) (by push_cast at hr2 ⊢; omega)

theorem readInt32_eq_signExtend (mem : Mem) (a : Int)
    (h0 : mem a < 256) (h1 : mem (a + 1) < 256)
    (h2 : mem (a + 2) < 256) (h3 : mem (a + 3) < 256) :
    readInt32 mem a = signExtend32 (readUInt32LE mem a) := by
  unfold readInt32 signExtend32
  have hlt : readUInt32LE mem a < 2 ^ 32 := by
    unfold readUInt32LE
    omega
  rw [Nat.mod_eq_of_lt hlt]

/-- C8 (confirmed): for a memory holding byte values, `FollowNearCall` with
the default offsets `(1, 5)` returns `p + 5` plus the sign-extended 32-bit
little-endian value read at `p + 1`; and in general
`ResolveRelativeAddress ro nio` returns `p + nio` plus the sign-extended
32-bit value read at `p + ro`. -/
theorem followNearCall_resolves_rel32 (mem : Mem) (p ro nio : Int)
    (ha : mem (p + 1) < 256) (hb : mem (p + 1 + 1) < 256)
    (hc : mem (p + 1 + 2) < 256) (hd : mem (p + 1 + 3) < 256)
    (ha2 : mem (p + ro) < 256) (hb2 : mem (p + ro + 1) < 256)
    (hc2 : mem (p + ro + 2) < 256) (hd2 : mem (p + ro + 3) < 256) :
    FollowNearCall mem p 1 5 = p + 5 + signExtend32 (readUInt32LE mem (p + 1)) ∧
    ResolveRelativeAddress mem p ro nio = p + nio + signExtend32 (readUInt32LE mem (p + ro)) := by
  constructor
  · show p + 5 + readInt32 mem (p + 1) = p + 5 + signExtend32 (readUInt32LE mem (p + 1))
    rw [readInt32_eq_signExtend mem (p + 1) ha hb hc hd]
  · show p + nio + readInt32 mem (p + ro) =
      p + nio + signExtend32 (readUInt32LE mem (p + ro))
    rw [readInt32_eq_signExtend mem (p + ro) ha2 hb2 hc2 hd2]

/-- C8 witness: the spec's scenario 4, `E8 10 00 00 00` at 4096. -/
theorem followNearCall_resolves_rel32_witness :
    FollowNearCall callMem 4096 1 5 = 4096 + 5 + signExtend32 (readUInt32LE callMem (4096 + 1)) ∧
    ResolveRelativeAddress callMem 4096 1 5 =
      4096 + 5 + signExtend32 (readUInt32LE callMem (4096 + 1)) :=
  followNearCall_resolves_rel32 callMem 4096 1 5 (by decide) (by decide) (by decide) (by decide)
    (by decide) (by decide) (by decide) (by decide)

/-- C9 counterexample: for the even (non-virtual) representation value 16,
the Itanium branch of `GetVirtualIndex` returns `(16 - 1u) / 8 = 1`, not the
invalid index `-1`; non-virtual pointers-to-member are not rejected. -/
theorem getVirtualIndexItanium_even_not_rejected :
    getVirtualIndexItanium 16 = 1 ∧ getVirtualIndexItanium 16 ≠ DYNLIB_INVALID_VCALL := by
  constructor
  · rfl
  · intro h
    exact absurd h (by decide)

/-- C9 (amended): for every representation value `addr ≥ 1` (in the signed
64-bit range) the Itanium branch returns the unsigned quotient
`(addr - 1) / 8` — in particular the claimed value for odd (virtual) `addr`
— and never returns the invalid index; even (non-virtual) `addr` is NOT
rejected. -/
theorem getVirtualIndexItanium_spec (addr : Int) (hge : 1 ≤ addr) (hlt : addr < 2 ^ 63) :
    getVirtualIndexItanium addr = (addr - 1) / 8 ∧
    getVirtualIndexItanium addr ≠ DYNLIB_INVALID_VCALL := by
  unfold getVirtualIndexItanium DYNLIB_INVALID_VCALL
  have he : (addr - 1).emod (2 ^ 64) = addr - 1 :=
    Int.emod_eq_of_lt (by omega) (by omega)
  rw [he]
  refine ⟨rfl, ?_⟩
  have hnn : 0 ≤ (addr - 1) / 8 := Int.ediv_nonneg (by omega) (by norm_num)
  omega

/-- C9 amended witness: the virtual representation value `addr = 17`
(vtable byte offset 16) yields index 2. -/
theorem getVirtualIndexItanium_spec_witness :
    getVirtualIndexItanium 17 = (17 - 1) / 8 ∧
    getVirtualIndexItanium 17 ≠ DYNLIB_INVALID_VCALL :=
  getVirtualIndexItanium_spec 17 (by decide) (by decide)

/-- C5 (confirmed): for an installable triple — non-null slot address, valid
index, hook not yet installed — hooking and then unhooking leaves the vtable
slot holding exactly the pointer it held before, and the unhook reports
success. -/
theorem hook_then_unhook_restores_slot (mem : WMem) (h0 : CVTHook) (pVTable nIndex fn : Int)
    (hslot : vtSlotAddr pVTable nIndex ≠ 0)
    (hfresh : h0.IsHooked = false) (hidx : nIndex ≠ DYNLIB_INVALID_VCALL) :
    (CVTHook.Unhook (CVTHook.Hook mem h0 pVTable nIndex fn).fst
        (CVTHook.Hook mem h0 pVTable nIndex fn).snd).fst (vtSlotAddr pVTable nIndex) =
      mem (vtSlotAddr pVTable nIndex) ∧
    (CVTHook.Unhook (CVTHook.Hook mem h0 pVTable nIndex fn).fst
        (CVTHook.Hook mem h0 pVTable nIndex fn).snd).snd.snd = true := by
  unfold CVTHook.Hook CVTHook.Unhook CVTHook.IsHooked
  simp [hslot]

/-- C5 witness: a concrete vtable at 4096, slot 3 holding 111, hooked with
222 and unhooked. -/
theorem hook_then_unhook_restores_slot_witness :
    (CVTHook.Unhook (CVTHook.Hook (fun _ => 111) CVTHook.init 4096 3 222).fst
        (CVTHook.Hook (fun _ => 111) CVTHook.init 4096 3 222).snd).fst (vtSlotAddr 4096 3) =
      (fun _ => (111 : Int)) (vtSlotAddr 4096 3) ∧
    (CVTHook.Unhook (CVTHook.Hook (fun _ => 111) CVTHook.init 4096 3 222).fst
        (CVTHook.Hook (fun _ => 111) CVTHook.init 4096 3 222).snd).snd.snd = true :=
  hook_then_unhook_restores_slot (fun _ => 111) CVTHook.init 4096 3 222 (by decide)
    (by decide) (by decide)

/-- C4 counterexample: two `AddHook` calls on the same `(vtable, index)` pair
leave TWO slot-hook elements in the `m_storage` multimap, because
`CVTFMHook::AddHook` calls `Base_t::AddHook` unconditionally; the claim that
only the first call installs a slot-hook fails. -/
theorem cvtfmhook_double_addhook_two_slot_hooks :
    countSlotHooks
      (CVTFMHook.AddHook
        (CVTFMHook.AddHook (fun _ => 7) ⟨[], []⟩ 1000 3 0 555).fst
        (CVTFMHook.AddHook (fun _ => 7) ⟨[], []⟩ 1000 3 0 555).snd
        1000 3 1 555).snd.storage 1000 = 2 ∧
    ¬ countSlotHooks
      (CVTFMHook.AddHook
        (CVTFMHook.AddHook (fun _ => 7) ⟨[], []⟩ 1000 3 0 555).fst
        (CVTFMHook.AddHook (fun _ => 7) ⟨[], []⟩ 1000 3 0 555).snd
        1000 3 1 555).snd.storage 1000 ≤ 1 := by
  constructor
  · rfl
  · decide

/-- C4 (amended): EVERY `CVTFMHook::AddHook` call installs a slot-hook via
the base `AddHook`: after a call for a view, the number of slot-hook entries
stored for that view is one more than before (so `k` calls leave `k`
entries, not one). -/
theorem cvtfmhook_addhook_installs_every_time (mem : WMem) (st : CVTFMHookState)
    (pVTable nIndex : Int) (cb : Nat) (tramp : Int) :
    countSlotHooks (CVTFMHook.AddHook mem st pVTable nIndex cb tramp).snd.storage pVTable =
      countSlotHooks st.storage pVTable + 1 := by
  unfold CVTFMHook.AddHook CVTMHookBase.AddHook countSlotHooks
  simp [List.filter_append]

/-- C6: evaluation of `FindAllPatterns` at the failing input.  The section
holds four zero bytes, the signature is the single strict byte `0x48`, so no
match exists; yet the do-while body runs once before the first validity
check, the always-true callback is invoked on the invalid address, and the
function returns 1 instead of 0. -/
theorem findAllPatterns_no_match_still_invokes_callback :
    CAssemblyModule.FindAllPatterns 127 (fun _ => 0) [] [0x48] ['x'] (fun _ _ => true) 0
      (some ⟨4096, 4⟩) none 16 = 1 := by
  rfl

/-- C2 counterexample: the spec's own scenario 1 (13-byte section at
`0x10000`, pattern `48 8B 05 ?? ?? ?? ??`, match at offset 6).  The scalar
scanner finds `0x10006`; the SSE2 and AVX2 scanners, which stop at
`pEnd - 16 + L` resp. `pEnd - 32 + L`, both miss it and return no match. -/
theorem simd_and_scalar_scanners_disagree :
    FindPatternScalar specMem 65536 65542 specPat specMask 7 = some 65542 ∧
    FindPatternSSE2 specMem 65536 65542 (filteredPatternOf specPat specMask 7)
      (binaryMaskOf specMask 7) 7 = none ∧
    FindPatternAVX2 specMem 65536 65542 (filteredPatternOf specPat specMask 7)
      (binaryMaskOf specMask 7) 7 = none := by
  refine ⟨?_, rfl, rfl⟩
  rfl

/-- C7 counterexample: `CAssemblyModule::FindPattern` (module.hpp) with an
empty pattern (`L = 0`) does not return the invalid address: the
no-strict-byte early return yields the section base. -/
theorem assembly_findPattern_empty_pattern_not_invalid :
    (CAssemblyModule.FindPattern 127 (fun _ => 0) [] [] [] 0 (some ⟨4096, 16⟩) none).fst =
      some 4096 ∧
    (CAssemblyModule.FindPattern 127 (fun _ => 0) [] [] [] 0 (some ⟨4096, 16⟩) none).fst ≠
      none := by
  constructor
  · rfl
  · intro h
    rw [show (CAssemblyModule.FindPattern 127 (fun _ => 0) [] [] [] 0
        (some ⟨4096, 16⟩) none).fst = some 4096 from rfl] at h
    exact Option.noConfusion h

theorem cacheLookup_cacheInsert_self (c : List (CCache × Int)) (k : CCache) (v : Int) :
    cacheLookup (cacheInsert c k v) k = some v := by
  induction c with
  | nil => simp [cacheInsert, cacheLookup]
  | cons e rest ih =>
    obtain ⟨k2, w⟩ := e
    by_cases h : k2 = k
    · simp [cacheInsert, cacheLookup, h]
    · simp [cacheInsert, cacheLookup, h, ih]

theorem findPattern_success_is_cached (SIZE : Nat) (mem : Mem) (cache : List (CCache × Int))
    (pattern : List Nat) (mask : List Char) (start : Int)
    (msect exec : Option Section_t) (a : Int)
    (h : (CAssemblyModule.FindPattern SIZE mem cache pattern mask start msect exec).fst =
      some a) :
    cacheLookup (CAssemblyModule.FindPattern SIZE mem cache pattern mask start msect exec).snd
      (mkCCache pattern mask.length start msect) = some a := by
  simp only [CAssemblyModule.FindPattern, GetAddress] at h ⊢
  cases hc : cacheLookup cache (mkCCache pattern mask.length start msect) with
  | some x =>
    rw [hc] at h ⊢
    exact h
  | none =>
    cases hu : CAssemblyModule.FindPatternUncached SIZE mem pattern mask start msect exec with
    | some p =>
      rw [hc, hu] at h
      obtain rfl : p = a := Option.some.inj h
      exact cacheLookup_cacheInsert_self cache _ p
    | none =>
      rw [hc, hu] at h
      exact Option.noConfusion h

/-- C10 (confirmed): the scan-cache key is built from the pattern bytes, the
mask LENGTH, the start address and the section only — never from the mask
contents.  If a first `FindPattern` call succeeds, a second call on the
resulting cache with the same bytes, length, start and section but ANY other
mask is served the first call's cached address. -/
theorem scan_cache_keyed_without_mask (SIZE : Nat) (mem : Mem) (cache : List (CCache × Int))
    (pattern : List Nat) (mask1 mask2 : List Char) (start : Int)
    (msect exec : Option Section_t) (a : Int)
    (hlen : mask1.length = mask2.length)
    (h1 : (CAssemblyModule.FindPattern SIZE mem cache pattern mask1 start msect exec).fst =
      some a) :
    (CAssemblyModule.FindPattern SIZE mem
        (CAssemblyModule.FindPattern SIZE mem cache pattern mask1 start msect exec).snd
        pattern mask2 start msect exec).fst = some a := by
  have hcached := findPattern_success_is_cached SIZE mem cache pattern mask1 start msect exec a h1
  have hkey : mkCCache pattern mask2.length start msect =
      mkCCache pattern mask1.length start msect := by
    rw [hlen]
  conv_lhs => rw [CAssemblyModule.FindPattern]
  simp only [GetAddress, hkey, hcached]

/-- Memory fixture for the cache claim: the byte `0x48` at 4097 only. -/
def c10mem : Mem := fun a => if a = 4097 then 0x48 else 0

/-- C10 witness: scanning for byte `0x48` with mask `"x"` over the 4-byte
section at 4096 caches the hit 4097; re-querying with the all-wildcard mask
`"?"` (whose own scan would give 4096) is served 4097 from the cache. -/
theorem scan_cache_keyed_without_mask_witness :
    ((List.length ['x'] = List.length ['?'] ∧
      (CAssemblyModule.FindPattern 127 c10mem [] [0x48] ['x'] 0
        (some ⟨4096, 4⟩) none).fst = some 4097) ∧
     CAssemblyModule.FindPatternUncached 127 c10mem [0x48] ['?'] 0
       (some ⟨4096, 4⟩) none = some 4096) ∧
    (CAssemblyModule.FindPattern 127 c10mem
        (CAssemblyModule.FindPattern 127 c10mem [] [0x48] ['x'] 0
          (some ⟨4096, 4⟩) none).snd
        [0x48] ['?'] 0 (some ⟨4096, 4⟩) none).fst = some 4097 :=
  ⟨⟨⟨rfl, rfl⟩, rfl⟩,
    scan_cache_keyed_without_mask 127 c10mem [] [0x48] ['x'] ['?'] 0
      (some ⟨4096, 4⟩) none 4097 rfl rfl⟩

theorem getD_map_range {α : Type} (f : Nat → α) (n k : Nat) (d : α) :
    ((List.range n).map f).getD k d = if k < n then f k else d := by
  by_cases h : k < n
  · rw [if_pos h, List.getD_eq_getElem?_getD, List.getElem?_map, List.getElem?_range h]
    rfl
  · rw [if_neg h, List.getD_eq_getElem?_getD, List.getElem?_map,
      List.getElem?_eq_none (by simpa using Nat.le_of_not_lt h)]
    rfl

theorem land_255_eq (a : Nat) (h : a < 256) : a &&& 255 = a := by
  have h2 : (255 : Nat) = 2 ^ 8 - 1 := by norm_num
  rw [h2]
  exact Nat.and_pow_two_sub_one_of_lt_two_pow (by omega)

theorem vecByte_filtered (pattern : List Nat) (mask : List Char) (maskLen k : Nat)
    (hk : k < maskLen) :
    vecByte (filteredPatternOf pattern mask maskLen) maskLen k =
      (if mask.getD k ' ' == 'x' then pattern.getD k 0 else 0) := by
  unfold vecByte filteredPatternOf
  rw [if_pos hk, getD_map_range, if_pos hk]

theorem vecByte_binary (mask : List Char) (maskLen k : Nat) (hk : k < maskLen) :
    vecByte (binaryMaskOf mask maskLen) maskLen k =
      (if mask.getD k ' ' == 'x' then 255 else 0) := by
  unfold vecByte binaryMaskOf
  rw [if_pos hk, getD_map_range, if_pos hk]

theorem scalarMatchAt_eq_true_iff (mem : Mem) (pattern : List Nat) (mask : List Char)
    (maskLen : Nat) (p : Int) :
    (scalarMatchAt mem pattern mask maskLen p = true) ↔
      ∀ i < maskLen, mask.getD i ' ' = 'x' → mem (p + (i : Int)) = pattern.getD i 0 := by
  unfold scalarMatchAt
  simp only [List.all_eq_true, List.mem_range]
  constructor
  · intro h i hi hx
    have hh := h i hi
    rw [Bool.not_eq_true', Bool.and_eq_false_iff] at hh
    rcases hh with hh | hh
    · rw [beq_eq_false_iff_ne] at hh
      exact absurd hx hh
    · rw [bne_eq_false_iff_eq] at hh
      exact hh.symm
  · intro h i hi
    rw [Bool.not_eq_true', Bool.and_eq_false_iff]
    by_cases hx : mask.getD i ' ' = 'x'
    · right
      rw [bne_eq_false_iff_eq]
      exact (h i hi hx).symm
    · left
      rw [beq_eq_false_iff_ne]
      exact hx

theorem maskMatchAt_eq_true_iff (mem : Mem) (pattern : List Nat) (mask : List Char)
    (p : Int) :
    (maskMatchAt mem pattern mask p = true) ↔
      ∀ i < mask.length, mask.getD i ' ' = 'x' → mem (p + (i : Int)) = pattern.getD i 0 := by
  unfold maskMatchAt
  simp only [List.all_eq_true, List.mem_range]
  constructor
  · intro h i hi hx
    have hh := h i hi
    rw [Bool.not_eq_true', Bool.and_eq_false_iff] at hh
    rcases hh with hh | hh
    · rw [beq_eq_false_iff_ne] at hh
      exact absurd hx hh
    · rw [bne_eq_false_iff_eq] at hh
      exact hh
  · intro h i hi
    rw [Bool.not_eq_true', Bool.and_eq_false_iff]
    by_cases hx : mask.getD i ' ' = 'x'
    · right
      rw [bne_eq_false_iff_eq]
      exact h i hi hx
    · left
      rw [beq_eq_false_iff_ne]
      exact hx

theorem simdMatchAt_eq_true_iff (mem : Mem) (pattern : List Nat) (mask : List Char)
    (maskLen width : Nat) (p : Int) (hw : maskLen ≤ width)
    (hmem : ∀ a, mem a < 256) (hpat : ∀ i, pattern.getD i 0 < 256) :
    (simdMatchAt mem (filteredPatternOf pattern mask maskLen) (binaryMaskOf mask maskLen)
      maskLen width (2 ^ maskLen - 1) p = true) ↔
      ∀ i < maskLen, mask.getD i ' ' = 'x' → mem (p + (i : Int)) = pattern.getD i 0 := by
  unfold simdMatchAt
  simp only [List.all_eq_true, List.mem_range, Bool.or_eq_true, Bool.not_eq_true',
    Nat.testBit_two_pow_sub_one, decide_eq_false_iff_not, Nat.not_lt, beq_iff_eq]
  constructor
  · intro h i hiL hx
    rcases h i (lt_of_lt_of_le hiL hw) with hge | heq
    · omega
    · rw [vecByte_filtered pattern mask maskLen i hiL,
        vecByte_binary mask maskLen i hiL] at heq
      rw [if_pos (beq_iff_eq.mpr hx), if_pos (beq_iff_eq.mpr hx)] at heq
      rwa [land_255_eq _ (hmem _), land_255_eq _ (hpat i)] at heq
  · intro h k hk
    by_cases hkL : k < maskLen
    · right
      rw [vecByte_filtered pattern mask maskLen k hkL, vecByte_binary mask maskLen k hkL]
      by_cases hx : mask.getD k ' ' = 'x'
      · rw [if_pos (beq_iff_eq.mpr hx), if_pos (beq_iff_eq.mpr hx),
          land_255_eq _ (hmem _), land_255_eq _ (hpat k)]
        exact h k hkL hx
      · have hxf : (mask.getD k ' ' == 'x') = false := beq_eq_false_iff_ne.mpr hx
        rw [if_neg (by rw [hxf]; exact Bool.false_ne_true),
          if_neg (by rw [hxf]; exact Bool.false_ne_true)]
        simp
    · left
      omega

theorem simdMatchAt_eq_scalarMatchAt (mem : Mem) (pattern : List Nat) (mask : List Char)
    (maskLen width : Nat) (p : Int) (hw : maskLen ≤ width)
    (hmem : ∀ a, mem a < 256) (hpat : ∀ i, pattern.getD i 0 < 256) :
    simdMatchAt mem (filteredPatternOf pattern mask maskLen) (binaryMaskOf mask maskLen)
      maskLen width (2 ^ maskLen - 1) p = scalarMatchAt mem pattern mask maskLen p := by
  rw [Bool.eq_iff_iff, simdMatchAt_eq_true_iff mem pattern mask maskLen width p hw hmem hpat,
    scalarMatchAt_eq_true_iff mem pattern mask maskLen p]

/-- C2 (amended): on byte-valued memory, the SSE2 scanner on the
dispatcher-prepared filtered pattern and binary mask equals a SCALAR scan
whose end pointer is lowered from `pEnd` to `pEnd - (16 - L)`, and the AVX2
scanner equals one lowered to `pEnd - (32 - L)`: the SIMD scanners scan the
same positions with the same per-position test but stop `16 - L`
(resp. `32 - L`) positions early, and therefore agree with the scalar
scanner only when the scalar match does not lie in that tail. -/
theorem simd_scanners_equal_truncated_scalar (mem : Mem) (pattern : List Nat)
    (mask : List Char) (maskLen : Nat) (pData pEnd : Int)
    (hmem : ∀ a, mem a < 256) (hpat : ∀ i, pattern.getD i 0 < 256) :
    (maskLen ≤ 16 →
      FindPatternSSE2 mem pData pEnd (filteredPatternOf pattern mask maskLen)
        (binaryMaskOf mask maskLen) maskLen =
      FindPatternScalar mem pData (pEnd - 16 + (maskLen : Int)) pattern mask maskLen) ∧
    (maskLen ≤ 32 →
      FindPatternAVX2 mem pData pEnd (filteredPatternOf pattern mask maskLen)
        (binaryMaskOf mask maskLen) maskLen =
      FindPatternScalar mem pData (pEnd - 32 + (maskLen : Int)) pattern mask maskLen) := by
  constructor
  · intro h16
    have hexp : (if 16 ≤ maskLen then (0xFFFF : Nat) else 2 ^ maskLen - 1) =
        2 ^ maskLen - 1 := by
      by_cases h : 16 ≤ maskLen
      · rw [if_pos h]
        have he : maskLen = 16 := le_antisymm h16 h
        subst he
        norm_num
      · rw [if_neg h]
    show scanLoop (simdMatchAt mem (filteredPatternOf pattern mask maskLen)
        (binaryMaskOf mask maskLen) maskLen 16
        (if 16 ≤ maskLen then 0xFFFF else 2 ^ maskLen - 1)) pData
        ((pEnd - 16 + (maskLen : Int)) + 1 - pData).toNat =
      scanLoop (scalarMatchAt mem pattern mask maskLen) pData
        ((pEnd - 16 + (maskLen : Int)) + 1 - pData).toNat
    rw [hexp]
    congr 1
    funext q
    exact simdMatchAt_eq_scalarMatchAt mem pattern mask maskLen 16 q h16 hmem hpat
  · intro h32
    have hexp : (if 32 ≤ maskLen then (0xFFFFFFFF : Nat) else 2 ^ maskLen - 1) =
        2 ^ maskLen - 1 := by
      by_cases h : 32 ≤ maskLen
      · rw [if_pos h]
        have he : maskLen = 32 := le_antisymm h32 h
        subst he
        norm_num
      · rw [if_neg h]
    show scanLoop (simdMatchAt mem (filteredPatternOf pattern mask maskLen)
        (binaryMaskOf mask maskLen) maskLen 32
        (if 32 ≤ maskLen then 0xFFFFFFFF else 2 ^ maskLen - 1)) pData
        ((pEnd - 32 + (maskLen : Int)) + 1 - pData).toNat =
      scanLoop (scalarMatchAt mem pattern mask maskLen) pData
        ((pEnd - 32 + (maskLen : Int)) + 1 - pData).toNat
    rw [hexp]
    congr 1
    funext q
    exact simdMatchAt_eq_scalarMatchAt mem pattern mask maskLen 32 q h32 hmem hpat

/-- C2 amended witness: two strict zero bytes over all-zero memory, section
positions 4096..4099. -/
theorem simd_scanners_equal_truncated_scalar_witness :
    FindPatternSSE2 (fun _ => 0) 4096 4099 (filteredPatternOf [0, 0] ['x', 'x'] 2)
      (binaryMaskOf ['x', 'x'] 2) 2 =
      FindPatternScalar (fun _ => 0) 4096 (4099 - 16 + (2 : Int)) [0, 0] ['x', 'x'] 2 ∧
    FindPatternAVX2 (fun _ => 0) 4096 4099 (filteredPatternOf [0, 0] ['x', 'x'] 2)
      (binaryMaskOf ['x', 'x'] 2) 2 =
      FindPatternScalar (fun _ => 0) 4096 (4099 - 32 + (2 : Int)) [0, 0] ['x', 'x'] 2 :=
  ⟨(simd_scanners_equal_truncated_scalar (fun _ => 0) [0, 0] ['x', 'x'] 2 4096 4099
      (fun _ => by norm_num) (fun i => by rcases i with _ | _ | i <;> simp [List.getD])).1
      (by norm_num),
   (simd_scanners_equal_truncated_scalar (fun _ => 0) [0, 0] ['x', 'x'] 2 4096 4099
      (fun _ => by norm_num) (fun i => by rcases i with _ | _ | i <;> simp [List.getD])).2
      (by norm_num)⟩

/-- The set of mask indices covered by a run list. -/
def coveredBy (runs : List (Nat × Nat)) (j : Nat) : Prop :=
  ∃ r ∈ runs, r.fst ≤ j ∧ j < r.fst + r.snd

theorem skipWildcards_spec (mask : List Char) (fuel i : Nat)
    (hi : i ≤ mask.length) (hfuel : mask.length - i ≤ fuel) :
    i ≤ skipWildcards mask i fuel ∧ skipWildcards mask i fuel ≤ mask.length ∧
    (∀ j, i ≤ j → j < skipWildcards mask i fuel → mask.getD j ' ' ≠ 'x') ∧
    (skipWildcards mask i fuel < mask.length →
      mask.getD (skipWildcards mask i fuel) ' ' = 'x') := by
  induction fuel generalizing i with
  | zero =>
    have : i = mask.length := by omega
    subst this
    refine ⟨le_refl _, le_refl _, ?_, ?_⟩
    · intro j h1 h2
      rw [skipWildcards] at h2
      omega
    · intro h
      rw [skipWildcards] at h
      omega
  | succ fuel ih =>
    rw [skipWildcards]
    by_cases hc : i < mask.length ∧ mask.getD i ' ' ≠ 'x'
    · rw [if_pos hc]
      obtain ⟨h1, h2, h3, h4⟩ := ih (i + 1) (by omega) (by omega)
      refine ⟨by omega, h2, ?_, h4⟩
      intro j hj1 hj2
      rcases eq_or_lt_of_le hj1 with he | hlt
      · rw [← he]
        exact hc.2
      · exact h3 j hlt hj2
    · rw [if_neg hc]
      push_neg at hc
      refine ⟨le_refl _, hi, ?_, ?_⟩
      · intro j h1 h2
        omega
      · intro h
        exact hc h

theorem skipRun_spec (mask : List Char) (fuel i : Nat)
    (hi : i ≤ mask.length) (hfuel : mask.length - i ≤ fuel) :
    i ≤ skipRun mask i fuel ∧ skipRun mask i fuel ≤ mask.length ∧
    (∀ j, i ≤ j → j < skipRun mask i fuel → mask.getD j ' ' = 'x') ∧
    (skipRun mask i fuel < mask.length →
      mask.getD (skipRun mask i fuel) ' ' ≠ 'x') := by
  induction fuel generalizing i with
  | zero =>
    have : i = mask.length := by omega
    subst this
    refine ⟨le_refl _, le_refl _, ?_, ?_⟩
    · intro j h1 h2
      rw [skipRun] at h2
      omega
    · intro h
      rw [skipRun] at h
      omega
  | succ fuel ih =>
    rw [skipRun]
    by_cases hc : i < mask.length ∧ mask.getD i ' ' = 'x'
    · rw [if_pos hc]
      obtain ⟨h1, h2, h3, h4⟩ := ih (i + 1) (by omega) (by omega)
      refine ⟨by omega, h2, ?_, h4⟩
      intro j hj1 hj2
      rcases eq_or_lt_of_le hj1 with he | hlt
      · rw [← he]
        exact hc.2
      · exact h3 j hlt hj2
    · rw [if_neg hc]
      push_neg at hc
      refine ⟨le_refl _, hi, ?_, ?_⟩
      · intro j h1 h2
        omega
      · intro h
        exact hc h

theorem computeRunsAux_cover (mask : List Char) (fuel i : Nat)
    (hi : i ≤ mask.length) (hfuel : mask.length - i ≤ fuel) :
    ∀ j, coveredBy (computeRunsAux mask i fuel) j ↔
      (i ≤ j ∧ j < mask.length ∧ mask.getD j ' ' = 'x') := by
  induction fuel generalizing i with
  | zero =>
    have : i = mask.length := by omega
    subst this
    intro j
    rw [computeRunsAux]
    constructor
    · rintro ⟨r, hr, -⟩
      exact absurd hr (List.not_mem_nil r)
    · rintro ⟨h1, h2, -⟩
      omega
  | succ fuel ih =>
    intro j
    rw [computeRunsAux]
    obtain ⟨hs1, hs2, hs3, hs4⟩ :=
      skipWildcards_spec mask (mask.length - i) i hi (le_refl _)
    set s := skipWildcards mask i (mask.length - i) with hsdef
    by_cases hslen : s < mask.length
    · rw [if_pos hslen]
      obtain ⟨he1, he2, he3, he4⟩ :=
        skipRun_spec mask (mask.length - s) s (by omega) (le_refl _)
      set e := skipRun mask s (mask.length - s) with hedef
      have hes : s < e := by
        rcases eq_or_lt_of_le he1 with hh | hh
        · exact absurd (hs4 hslen) (hh ▸ he4 (hh ▸ hslen))
        · exact hh
      have hcov := ih e (by omega) (by omega)
      constructor
      · rintro ⟨r, hr, hr1, hr2⟩
        rcases List.mem_cons.mp hr with he | hmem
        · subst he
          simp only at hr1 hr2
          have hje : j < e := by omega
          exact ⟨by omega, by omega, he3 j hr1 hje⟩
        · obtain ⟨h1, h2, h3⟩ := (hcov j).mp ⟨r, hmem, hr1, hr2⟩
          exact ⟨by omega, h2, h3⟩
      · rintro ⟨h1, h2, h3⟩
        by_cases hjs : j < s
        · exact absurd h3 (hs3 j h1 hjs)
        · by_cases hje : j < e
          · exact ⟨(s, e - s), List.mem_cons_self _ _, by omega, by omega⟩
          · obtain ⟨r, hr, hr1, hr2⟩ := (hcov j).mpr ⟨by omega, h2, h3⟩
            exact ⟨r, List.mem_cons_of_mem _ hr, hr1, hr2⟩
    · rw [if_neg hslen]
      constructor
      · rintro ⟨r, hr, -⟩
        exact absurd hr (List.not_mem_nil r)
      · rintro ⟨h1, h2, h3⟩
        exact absurd h3 (hs3 j h1 (by omega))

theorem computeRuns_cover (mask : List Char) (j : Nat) :
    coveredBy (computeRuns mask) j ↔ (j < mask.length ∧ mask.getD j ' ' = 'x') := by
  have := computeRunsAux_cover mask mask.length 0 (Nat.zero_le _) (by omega) j
  rw [computeRuns]
  rw [this]
  constructor
  · rintro ⟨-, h2, h3⟩
    exact ⟨h2, h3⟩
  · rintro ⟨h2, h3⟩
    exact ⟨Nat.zero_le _, h2, h3⟩

theorem computeRunsAux_pos (mask : List Char) (fuel i : Nat)
    (hi : i ≤ mask.length) (hfuel : mask.length - i ≤ fuel) :
    ∀ r ∈ computeRunsAux mask i fuel, 0 < r.snd := by
  induction fuel generalizing i with
  | zero =>
    intro r hr
    rw [computeRunsAux] at hr
    exact absurd hr (List.not_mem_nil r)
  | succ fuel ih =>
    intro r hr
    rw [computeRunsAux] at hr
    obtain ⟨hs1, hs2, hs3, hs4⟩ :=
      skipWildcards_spec mask (mask.length - i) i hi (le_refl _)
    set s := skipWildcards mask i (mask.length - i) with hsdef
    by_cases hslen : s < mask.length
    · rw [if_pos hslen] at hr
      obtain ⟨he1, he2, he3, he4⟩ :=
        skipRun_spec mask (mask.length - s) s (by omega) (le_refl _)
      set e := skipRun mask s (mask.length - s) with hedef
      have hes : s < e := by
        rcases eq_or_lt_of_le he1 with hh | hh
        · exact absurd (hs4 hslen) (hh ▸ he4 (hh ▸ hslen))
        · exact hh
      rcases List.mem_cons.mp hr with he | hmem
      · subst he
        simp only
        omega
      · exact ih e (by omega) (by omega) r hmem
    · rw [if_neg hslen] at hr
      exact absurd hr (List.not_mem_nil r)

theorem all_ne_x_iff (mask : List Char) :
    (mask.all fun c => c != 'x') = true ↔ ∀ j < mask.length, mask.getD j ' ' ≠ 'x' := by
  rw [List.all_eq_true]
  constructor
  · intro h j hj
    have hmem : mask.getD j ' ' ∈ mask := by
      rw [List.getD_eq_getElem?_getD, List.getElem?_eq_getElem hj]
      exact List.getElem_mem hj
    have := h _ hmem
    rwa [bne_iff_ne] at this
  · intro h c hc
    rw [bne_iff_ne]
    obtain ⟨j, hj, rfl⟩ := List.mem_iff_getElem.mp hc
    have := h j hj
    rwa [List.getD_eq_getElem?_getD, List.getElem?_eq_getElem hj] at this

theorem computeRuns_eq_nil_of_no_x (mask : List Char)
    (h : ∀ j < mask.length, mask.getD j ' ' ≠ 'x') : computeRuns mask = [] := by
  cases hr : computeRuns mask with
  | nil => rfl
  | cons r rest =>
    exfalso
    have hpos : 0 < r.snd := by
      have := computeRunsAux_pos mask mask.length 0 (Nat.zero_le _) (by omega) r
      rw [← computeRuns] at this
      exact this (hr ▸ List.mem_cons_self r rest)
    have hcov : coveredBy (computeRuns mask) r.fst :=
      ⟨r, hr ▸ List.mem_cons_self r rest, le_refl _, by omega⟩
    obtain ⟨h1, h2⟩ := (computeRuns_cover mask r.fst).mp hcov
    exact h r.fst h1 h2

theorem runsMatchAt_eq_true_iff (mem : Mem) (pattern : List Nat) (runs : List (Nat × Nat))
    (p : Int) :
    (runsMatchAt mem pattern runs p = true) ↔
      ∀ j, coveredBy runs j → mem (p + (j : Int)) = pattern.getD j 0 := by
  unfold runsMatchAt
  simp only [List.all_eq_true, List.mem_range]
  constructor
  · rintro h j ⟨r, hr, hr1, hr2⟩
    have := h r hr (j - r.fst) (by omega)
    rw [beq_iff_eq] at this
    have hj : r.fst + (j - r.fst) = j := by omega
    rwa [hj] at this
  · intro h r hr k hk
    rw [beq_iff_eq]
    exact h (r.fst + k) ⟨r, hr, by omega, by omega⟩

/-- C7 (amended): `CModule::FindPattern` (module.cpp) returns the invalid
address immediately when `L = 0` or `L > size`.
`CAssemblyModule::FindPattern` (module.hpp) has no such guard: with a null
start address, when the mask contains at least one `'x'` and `L > size` the
empty scan range yields the invalid address, but when the mask contains no
`'x'` at all (in particular when `L = 0`) the no-strict-byte early return
yields the section base regardless of the pattern length. -/
theorem findPattern_degenerate_length_guards :
    (∀ (hasAVX2 hasSSE2 : Bool) (mem : Mem) (pattern : List Nat) (mask : List Char)
        (start : Int) (msect : Option Section_t) (exec : Section_t),
      mask.length = 0 ∨ (msect.getD exec).size < mask.length →
      CModule.FindPattern hasAVX2 hasSSE2 mem pattern mask start msect exec = none) ∧
    (∀ (SIZE : Nat) (mem : Mem) (pattern : List Nat) (mask : List Char)
        (sect : Section_t) (exec : Option Section_t),
      sect.size < mask.length → 'x' ∈ mask →
      (CAssemblyModule.FindPattern SIZE mem [] pattern mask 0 (some sect) exec).fst =
        none) ∧
    (∀ (SIZE : Nat) (mem : Mem) (pattern : List Nat) (mask : List Char)
        (sect : Section_t) (exec : Option Section_t),
      (mask.all fun c => c != 'x') = true → sect.IsValid = true →
      (CAssemblyModule.FindPattern SIZE mem [] pattern mask 0 (some sect) exec).fst =
        some sect.base) := by
  refine ⟨?_, ?_, ?_⟩
  · intro hasAVX2 hasSSE2 mem pattern mask start msect exec hL
    by_cases hval : (msect.getD exec).IsValid = true
    · have hcond : (mask.length == 0 ||
          decide ((msect.getD exec).size < mask.length)) = true := by
        rcases hL with h | h
        · simp [h]
        · simp [h]
      simp only [CModule.FindPattern, hval, hcond]
      simp
    · have hval2 : (msect.getD exec).IsValid = false := by simpa using hval
      simp only [CModule.FindPattern, hval2]
      simp
  · intro SIZE mem pattern mask sect exec hsize hx
    have hall : (mask.all fun c => c != 'x') = false := by
      cases hb : mask.all fun c => c != 'x'
      · rfl
      · exfalso
        have hno := (all_ne_x_iff mask).mp hb
        obtain ⟨j, hj, hget⟩ := List.mem_iff_getElem.mp hx
        refine hno j hj ?_
        rw [List.getD_eq_getElem?_getD, List.getElem?_eq_getElem hj]
        exact hget
    have hun : CAssemblyModule.FindPatternUncached SIZE mem pattern mask 0 (some sect)
        exec = none := by
      unfold CAssemblyModule.FindPatternUncached
      cases hv : sect.IsValid with
      | false => simp [hv]
      | true =>
        have hfuel : (sect.base + (sect.size : Int) - (mask.length : Int) + 1 -
            sect.base).toNat = 0 := by
          apply Int.toNat_of_nonpos
          omega
        simp [hv, hall, hfuel, scanLoop]
    unfold CAssemblyModule.FindPattern
    simp only [GetAddress, cacheLookup, hun]
  · intro SIZE mem pattern mask sect exec hall hv
    have hruns : computeRuns mask = [] :=
      computeRuns_eq_nil_of_no_x mask ((all_ne_x_iff mask).mp hall)
    have hun : CAssemblyModule.FindPatternUncached SIZE mem pattern mask 0 (some sect)
        exec = some sect.base := by
      unfold CAssemblyModule.FindPatternUncached
      simp [hv, hruns, hall]
    unfold CAssemblyModule.FindPattern
    simp only [GetAddress, cacheLookup, hun]

/-- C7 amended witness: an empty pattern through the module.cpp scanner, an
oversized strict pattern and an empty pattern through the module.hpp
scanner. -/
theorem findPattern_degenerate_length_guards_witness :
    CModule.FindPattern false false (fun _ => 0) [] [] 0 (some ⟨4096, 16⟩) ⟨4096, 16⟩ =
      none ∧
    (CAssemblyModule.FindPattern 127 (fun _ => 0) [] [1] ['x'] 0 (some ⟨4096, 0⟩)
      none).fst = none ∧
    (CAssemblyModule.FindPattern 127 (fun _ => 0) [] [] [] 0 (some ⟨4096, 16⟩)
      none).fst = some (4096 : Int) :=
  ⟨findPattern_degenerate_length_guards.1 false false (fun _ => 0) [] [] 0
      (some ⟨4096, 16⟩) ⟨4096, 16⟩ (Or.inl rfl),
   findPattern_degenerate_length_guards.2.1 127 (fun _ => 0) [1] ['x'] ⟨4096, 0⟩ none
      (by decide) (by decide),
   findPattern_degenerate_length_guards.2.2 127 (fun _ => 0) [] [] ⟨4096, 16⟩ none
      (by decide) (by decide)⟩

theorem getD_mem_of_lt {α : Type} (l : List α) (i : Nat) (d : α) (h : i < l.length) :
    l.getD i d ∈ l := by
  rw [List.getD_eq_getElem?_getD, List.getElem?_eq_getElem h]
  exact List.getElem_mem h

theorem specMatch_iff_strict (mem : Mem) (pattern : List Nat) (mask : List Char) (p : Int)
    (hmask : ∀ c ∈ mask, c = 'x' ∨ c = '?') :
    specMatch mem pattern mask p ↔
      ∀ i < mask.length, mask.getD i ' ' = 'x' → mem (p + (i : Int)) = pattern.getD i 0 := by
  unfold specMatch
  constructor
  · intro h i hi hx
    rcases h i hi with hq | he
    · rw [hx] at hq
      exact absurd hq (by decide)
    · exact he.symm
  · intro h i hi
    by_cases hx : mask.getD i ' ' = 'x'
    · exact Or.inr (h i hi hx).symm
    · left
      rcases hmask _ (getD_mem_of_lt mask i ' ' hi) with h1 | h2
      · exact absurd h1 hx
      · exact h2

theorem scanLoop_spec_conclusion (mem : Mem) (pattern : List Nat) (mask : List Char)
    (f : Int → Bool) (start pEnd : Int)
    (hstart : start ≤ pEnd + 1)
    (hm : ∀ p, f p = true ↔ specMatch mem pattern mask p) :
    (∀ q, scanLoop f start (pEnd + 1 - start).toNat = some q →
      start ≤ q ∧ q ≤ pEnd ∧ specMatch mem pattern mask q ∧
      ∀ r, start ≤ r → r < q → ¬ specMatch mem pattern mask r) ∧
    (scanLoop f start (pEnd + 1 - start).toNat = none →
      ∀ r, start ≤ r → r ≤ pEnd → ¬ specMatch mem pattern mask r) := by
  have hcast : ((pEnd + 1 - start).toNat : Int) = pEnd + 1 - start :=
    Int.toNat_of_nonneg (by omega)
  constructor
  · intro q hq
    obtain ⟨h1, h2, h3, h4⟩ := (scanLoop_some_iff f start _ q).mp hq
    rw [hcast] at h2
    refine ⟨h1, by omega, (hm q).mp h3, ?_⟩
    intro r hr1 hr2 hspec
    have hfr := h4 r hr1 hr2
    have := (hm r).mpr hspec
    rw [hfr] at this
    exact absurd this (by simp)
  · intro hq r hr1 hr2 hspec
    have hfr := (scanLoop_none_iff f start _).mp hq r hr1 (by rw [hcast]; omega)
    have := (hm r).mpr hspec
    rw [hfr] at this
    exact absurd this (by simp)

/-- C1 (confirmed): on a fresh (empty) cache, a valid module section, a
pattern whose mask characters are `'x'` or `'?'` and whose length `L` fits
the section, and a start address inside `[base, base + size - L]`,
`CAssemblyModule::FindPattern` returns the FIRST address `q` in
`[start, base + size - L]` such that every pattern index is a wildcard or
agrees with the byte in memory, and the invalid address exactly when no
position in that interval matches. -/
theorem findPattern_first_match (SIZE : Nat) (mem : Mem) (pattern : List Nat)
    (mask : List Char) (sect : Section_t) (start : Int) (exec : Option Section_t)
    (hmask : ∀ c ∈ mask, c = 'x' ∨ c = '?')
    (hvalid : 0 < sect.base)
    (hL : mask.length ≤ sect.size)
    (hstart1 : sect.base ≤ start)
    (hstart2 : start ≤ sect.base + (sect.size : Int) - (mask.length : Int)) :
    (∀ q, (CAssemblyModule.FindPattern SIZE mem [] pattern mask start (some sect)
          exec).fst = some q →
      start ≤ q ∧ q ≤ sect.base + (sect.size : Int) - (mask.length : Int) ∧
      specMatch mem pattern mask q ∧
      ∀ r, start ≤ r → r < q → ¬ specMatch mem pattern mask r) ∧
    ((CAssemblyModule.FindPattern SIZE mem [] pattern mask start (some sect)
          exec).fst = none →
      ∀ r, start ≤ r → r ≤ sect.base + (sect.size : Int) - (mask.length : Int) →
        ¬ specMatch mem pattern mask r) := by
  have hstartne : start ≠ 0 := by omega
  have hsB : (start != 0) = true := bne_iff_ne.mpr hstartne
  have hvB : sect.IsValid = true := by
    unfold Section_t.IsValid
    exact bne_iff_ne.mpr (by omega)
  have hrange : ¬(start < sect.base ∨
      sect.base + (sect.size : Int) - (mask.length : Int) < start) := by
    push_neg
    exact ⟨hstart1, hstart2⟩
  have hfst : (CAssemblyModule.FindPattern SIZE mem [] pattern mask start (some sect)
        exec).fst =
      CAssemblyModule.FindPatternUncached SIZE mem pattern mask start (some sect) exec := by
    unfold CAssemblyModule.FindPattern
    simp only [GetAddress, cacheLookup]
    cases CAssemblyModule.FindPatternUncached SIZE mem pattern mask start (some sect)
      exec <;> rfl
  rw [hfst]
  by_cases hnox : ∀ j < mask.length, mask.getD j ' ' ≠ 'x'
  · -- no strict byte anywhere: the early return yields the start position
    have hruns := computeRuns_eq_nil_of_no_x mask hnox
    have hall : (mask.all fun c => c != 'x') = true := (all_ne_x_iff mask).mpr hnox
    have hres : CAssemblyModule.FindPatternUncached SIZE mem pattern mask start
        (some sect) exec = some start := by
      unfold CAssemblyModule.FindPatternUncached
      dsimp only
      rw [if_neg (by rw [hvB]; simp), if_pos hsB, if_neg hrange]
      simp [hruns, hall]
    rw [hres]
    constructor
    · intro q hq
      obtain rfl : start = q := Option.some.inj hq
      refine ⟨le_refl _, hstart2, ?_, ?_⟩
      · intro i hi
        left
        rcases hmask _ (getD_mem_of_lt mask i ' ' hi) with h1 | h2
        · exact absurd h1 (hnox i hi)
        · exact h2
      · intro r hr1 hr2 hspec
        omega
    · intro hq
      exact absurd hq (by simp)
  · -- at least one strict byte: the main scan loop runs
    push_neg at hnox
    obtain ⟨j0, hj0, hx0⟩ := hnox
    have hall : (mask.all fun c => c != 'x') = false := by
      cases hb : mask.all fun c => c != 'x'
      · rfl
      · exact absurd hx0 ((all_ne_x_iff mask).mp hb j0 hj0)
    have hstrict : ∀ p, specMatch mem pattern mask p ↔
        ∀ i < mask.length, mask.getD i ' ' = 'x' → mem (p + (i : Int)) = pattern.getD i 0 :=
      fun p => specMatch_iff_strict mem pattern mask p hmask
    by_cases hov : max SIZE 1 < (computeRuns mask).length
    · -- run buffer overflow: degenerate byte-wise matcher
      have hres : CAssemblyModule.FindPatternUncached SIZE mem pattern mask start
          (some sect) exec =
          scanLoop (maskMatchAt mem pattern mask) start
            (sect.base + (sect.size : Int) - (mask.length : Int) + 1 - start).toNat := by
        unfold CAssemblyModule.FindPatternUncached
        dsimp only
        rw [if_neg (by rw [hvB]; simp), if_pos hsB, if_neg hrange]
        simp [hov, hall]
      rw [hres]
      exact scanLoop_spec_conclusion mem pattern mask _ start _ (by omega)
        (fun p => (maskMatchAt_eq_true_iff mem pattern mask p).trans (hstrict p).symm)
    · -- runs fit the buffer: memcmp-over-runs matcher
      have hne : computeRuns mask ≠ [] := by
        intro hnil
        obtain ⟨r, hr, -⟩ := (computeRuns_cover mask j0).mpr ⟨hj0, hx0⟩
        rw [hnil] at hr
        exact absurd hr (List.not_mem_nil r)
      have hie : (computeRuns mask).isEmpty = false := by
        cases hl : computeRuns mask with
        | nil => exact absurd hl hne
        | cons a l => rfl
      have hres : CAssemblyModule.FindPatternUncached SIZE mem pattern mask start
          (some sect) exec =
          scanLoop (runsMatchAt mem pattern (computeRuns mask)) start
            (sect.base + (sect.size : Int) - (mask.length : Int) + 1 - start).toNat := by
        unfold CAssemblyModule.FindPatternUncached
        dsimp only
        rw [if_neg (by rw [hvB]; simp), if_pos hsB, if_neg hrange]
        simp [hov, hie]
      rw [hres]
      refine scanLoop_spec_conclusion mem pattern mask _ start _ (by omega) ?_
      intro p
      rw [runsMatchAt_eq_true_iff, hstrict p]
      constructor
      · intro h i hi hx
        exact h i ((computeRuns_cover mask i).mpr ⟨hi, hx⟩)
      · intro h j hcov
        obtain ⟨hjl, hjx⟩ := (computeRuns_cover mask j).mp hcov
        exact h j hjl hjx

/-- C1 witness: the spec's scenario 1, pattern `48 8B 05 ?? ?? ?? ??` over
the 13-byte section at `0x10000`, scanned from the base; the first (only)
match is `0x10006`. -/
theorem findPattern_first_match_witness :
    ((∀ c ∈ specMask, c = 'x' ∨ c = '?') ∧
     (CAssemblyModule.FindPattern 127 specMem [] specPat specMask 65536 (some specSect)
        none).fst = some 65542) ∧
    (∀ q, (CAssemblyModule.FindPattern 127 specMem [] specPat specMask 65536
          (some specSect) none).fst = some q →
      65536 ≤ q ∧ q ≤ specSect.base + (specSect.size : Int) - (specMask.length : Int) ∧
      specMatch specMem specPat specMask q ∧
      ∀ r, 65536 ≤ r → r < q → ¬ specMatch specMem specPat specMask r) ∧
    ((CAssemblyModule.FindPattern 127 specMem [] specPat specMask 65536 (some specSect)
        none).fst = none →
      ∀ r, 65536 ≤ r → r ≤ specSect.base + (specSect.size : Int) - (specMask.length : Int) →
        ¬ specMatch specMem specPat specMask r) :=
  ⟨⟨by decide, by rfl⟩,
   findPattern_first_match 127 specMem specPat specMask specSect 65536 none (by decide)
     (by decide) (by decide) (by decide) (by decide)⟩

theorem char_le_iff_toNat (a b : Char) : a ≤ b ↔ a.toNat ≤ b.toNat := by
  rw [Char.le_def, UInt32.le_def, BitVec.le_def]
  exact Iff.rfl

theorem hex_range (c : Char) (h : funcIsHexDigit c = true) :
    (48 ≤ c.toNat ∧ c.toNat ≤ 57) ∨ (65 ≤ c.toNat ∧ c.toNat ≤ 70) ∨
      (97 ≤ c.toNat ∧ c.toNat ≤ 102) := by
  unfold funcIsHexDigit at h
  simp only [Bool.or_eq_true, Bool.and_eq_true, decide_eq_true_eq] at h
  rcases h with (⟨h1, h2⟩ | ⟨h1, h2⟩) | ⟨h1, h2⟩
  · exact Or.inl ⟨(char_le_iff_toNat _ c).mp h1, (char_le_iff_toNat c _).mp h2⟩
  · exact Or.inr (Or.inl ⟨(char_le_iff_toNat _ c).mp h1, (char_le_iff_toNat c _).mp h2⟩)
  · exact Or.inr (Or.inr ⟨(char_le_iff_toNat _ c).mp h1, (char_le_iff_toNat c _).mp h2⟩)

theorem hex_byte_facts (c : Char) (h : funcIsHexDigit c = true) :
    funcGetHexByte c = funcHexCharToByte c ∧ funcGetHexByte c < 16 := by
  have h0 : ('0' : Char).toNat = 48 := rfl
  have h9 : ('9' : Char).toNat = 57 := rfl
  have hA : ('A' : Char).toNat = 65 := rfl
  have hF : ('F' : Char).toNat = 70 := rfl
  have ha : ('a' : Char).toNat = 97 := rfl
  have hf : ('f' : Char).toNat = 102 := rfl
  unfold funcGetHexByte funcHexCharToByte INVALID_DYNLIB_BYTE
  rcases hex_range c h with ⟨h1, h2⟩ | ⟨h1, h2⟩ | ⟨h1, h2⟩
  · rw [if_pos ⟨(char_le_iff_toNat _ c).mpr (by omega), (char_le_iff_toNat c _).mpr (by omega)⟩,
      if_pos ⟨(char_le_iff_toNat _ c).mpr (by omega), (char_le_iff_toNat c _).mpr (by omega)⟩]
    constructor
    · rfl
    · rw [h0]
      omega
  · have hnum : ¬('0' ≤ c ∧ c ≤ '9') := by
      rintro ⟨-, hy⟩
      have := (char_le_iff_toNat c _).mp hy
      omega
    have hlow : ¬('a' ≤ c ∧ c ≤ 'f') := by
      rintro ⟨hy, -⟩
      have := (char_le_iff_toNat _ c).mp hy
      omega
    rw [if_neg hnum, if_neg hlow,
      if_pos ⟨(char_le_iff_toNat _ c).mpr (by omega), (char_le_iff_toNat c _).mpr (by omega)⟩,
      if_neg hnum,
      if_pos ⟨(char_le_iff_toNat _ c).mpr (by omega), (char_le_iff_toNat c _).mpr (by omega)⟩]
    constructor
    · rw [hA]
      omega
    · rw [hA]
      omega
  · have hnum : ¬('0' ≤ c ∧ c ≤ '9') := by
      rintro ⟨-, hy⟩
      have := (char_le_iff_toNat c _).mp hy
      omega
    have hup : ¬('A' ≤ c ∧ c ≤ 'F') := by
      rintro ⟨-, hy⟩
      have := (char_le_iff_toNat c _).mp hy
      omega
    rw [if_neg hnum,
      if_pos ⟨(char_le_iff_toNat _ c).mpr (by omega), (char_le_iff_toNat c _).mpr (by omega)⟩,
      if_neg hnum, if_neg hup]
    constructor
    · rw [ha]
      omega
    · rw [ha]
      omega

theorem hex_ne_space_qmark (c : Char) (h : funcIsHexDigit c = true) :
    c ≠ ' ' ∧ c ≠ '?' := by
  constructor
  · rintro rfl
    exact absurd h (by decide)
  · rintro rfl
    exact absurd h (by decide)

theorem charAt_append (pre suf : List Char) (k : Nat) :
    charAt (pre ++ suf) (pre.length + k) = suf.getD k (Char.ofNat 0) := by
  unfold charAt
  rw [List.getD_eq_getElem?_getD, List.getD_eq_getElem?_getD,
    List.getElem?_append_right (by omega)]
  have hk : pre.length + k - pre.length = k := by omega
  rw [hk]

theorem charAt_cons (pre : List Char) (c : Char) (suf : List Char) :
    charAt (pre ++ c :: suf) pre.length = c := by
  simpa using charAt_append pre (c :: suf) 0

theorem charAt_cons1 (pre : List Char) (c d : Char) (suf : List Char) :
    charAt (pre ++ c :: d :: suf) (pre.length + 1) = d := by
  simpa using charAt_append pre (c :: d :: suf) 1

theorem processAux_at_end (s : List Char) (fuel n : Nat) (acc : List (Nat × Char))
    (hn : s.length ≤ n) :
    ProcessStringPatternAux s fuel n acc = acc := by
  cases fuel with
  | zero => rfl
  | succ f =>
    have hc : charAt s n = Char.ofNat 0 := by
      unfold charAt
      rw [List.getD_eq_getElem?_getD, List.getElem?_eq_none hn]
      rfl
    rw [ProcessStringPatternAux, hc]
    rw [if_neg (by decide), if_neg (by decide), if_neg (by decide)]

theorem parseAux_at_end (N : Nat) (s : List Char) (fuel n : Nat)
    (acc : List (Nat × Char)) (hn : s.length ≤ n) :
    ParsePatternAux N s fuel n acc = acc := by
  cases fuel with
  | zero => rfl
  | succ f =>
    rw [ParsePatternAux]
    rw [if_neg (by rintro ⟨h1, -⟩; omega)]

theorem processAux_space_step (pre suf : List Char) (fuel : Nat)
    (acc : List (Nat × Char)) :
    ProcessStringPatternAux (pre ++ ' ' :: suf) (fuel + 1) pre.length acc =
      ProcessStringPatternAux (pre ++ ' ' :: suf) fuel (pre.length + 1) acc := by
  rw [ProcessStringPatternAux, charAt_cons]
  rw [if_pos rfl]

theorem processAux_wild_step (pre suf : List Char) (fuel : Nat)
    (acc : List (Nat × Char)) (hno : suf.getD 0 (Char.ofNat 0) ≠ '?') :
    ProcessStringPatternAux (pre ++ '?' :: suf) (fuel + 1) pre.length acc =
      ProcessStringPatternAux (pre ++ '?' :: suf) fuel (pre.length + 1)
        (acc ++ [(0, '?')]) := by
  rw [ProcessStringPatternAux, charAt_cons]
  rw [if_neg (by decide), if_pos rfl]
  have hc1 : charAt (pre ++ '?' :: suf) (pre.length + 1) = suf.getD 0 (Char.ofNat 0) := by
    simpa using charAt_append pre ('?' :: suf) 1
  dsimp only
  rw [if_neg (by rintro ⟨-, hq⟩; rw [hc1] at hq; exact hno hq)]

theorem processAux_wild2_step (pre suf : List Char) (fuel : Nat)
    (acc : List (Nat × Char)) :
    ProcessStringPatternAux (pre ++ '?' :: '?' :: suf) (fuel + 1) pre.length acc =
      ProcessStringPatternAux (pre ++ '?' :: '?' :: suf) fuel (pre.length + 2)
        (acc ++ [(0, '?')]) := by
  rw [ProcessStringPatternAux, charAt_cons]
  rw [if_neg (by decide), if_pos rfl]
  dsimp only
  rw [if_pos ⟨by simp only [List.length_append, List.length_cons]; omega,
    charAt_cons1 pre '?' '?' suf⟩]

theorem processAux_hex_step (pre suf : List Char) (c1 c2 : Char) (fuel : Nat)
    (acc : List (Nat × Char)) (h1 : funcIsHexDigit c1 = true)
    (h2 : funcIsHexDigit c2 = true) :
    ProcessStringPatternAux (pre ++ c1 :: c2 :: suf) (fuel + 1) pre.length acc =
      ProcessStringPatternAux (pre ++ c1 :: c2 :: suf) fuel (pre.length + 2)
        (acc ++ [(funcHexCharToByte c1 <<< 4 ||| funcHexCharToByte c2, 'x')]) := by
  rw [ProcessStringPatternAux, charAt_cons]
  rw [if_neg (hex_ne_space_qmark c1 h1).1, if_neg (hex_ne_space_qmark c1 h1).2,
    if_pos h1]
  rw [if_pos (by simp only [List.length_append, List.length_cons]; omega)]
  rw [charAt_cons1, if_pos h2]

theorem parseAux_wild_step (N : Nat) (pre suf : List Char) (fuel : Nat)
    (acc : List (Nat × Char)) (hacc : acc.length < N)
    (hno : suf.getD 0 (Char.ofNat 0) ≠ '?') :
    ParsePatternAux N (pre ++ '?' :: suf) (fuel + 1) pre.length acc =
      ParsePatternAux N (pre ++ '?' :: suf) fuel (pre.length + 2)
        (acc ++ [(0, '?')]) := by
  rw [ParsePatternAux]
  rw [if_pos ⟨by simp, hacc⟩]
  rw [charAt_cons, if_pos rfl]
  have hc1 : charAt (pre ++ '?' :: suf) (pre.length + 1) = suf.getD 0 (Char.ofNat 0) := by
    simpa using charAt_append pre ('?' :: suf) 1
  dsimp only
  rw [if_neg (by rintro ⟨-, hq⟩; rw [hc1] at hq; exact hno hq)]

theorem parseAux_wild2_step (N : Nat) (pre suf : List Char) (fuel : Nat)
    (acc : List (Nat × Char)) (hacc : acc.length < N) :
    ParsePatternAux N (pre ++ '?' :: '?' :: suf) (fuel + 1) pre.length acc =
      ParsePatternAux N (pre ++ '?' :: '?' :: suf) fuel (pre.length + 3)
        (acc ++ [(0, '?')]) := by
  rw [ParsePatternAux]
  rw [if_pos ⟨by simp, hacc⟩]
  rw [charAt_cons, if_pos rfl]
  dsimp only
  rw [if_pos ⟨by simp only [List.length_append, List.length_cons]; omega,
    charAt_cons1 pre '?' '?' suf⟩]

theorem parseAux_hex_step (N : Nat) (pre suf : List Char) (c1 c2 : Char) (fuel : Nat)
    (acc : List (Nat × Char)) (hacc : acc.length < N)
    (h1 : funcIsHexDigit c1 = true) (h2 : funcIsHexDigit c2 = true) :
    ParsePatternAux N (pre ++ c1 :: c2 :: suf) (fuel + 1) pre.length acc =
      ParsePatternAux N (pre ++ c1 :: c2 :: suf) fuel (pre.length + 3)
        (acc ++ [(funcGetHexByte c1 <<< 4 ||| funcGetHexByte c2, 'x')]) := by
  rw [ParsePatternAux]
  rw [if_pos ⟨by simp, hacc⟩]
  rw [charAt_cons, if_neg (hex_ne_space_qmark c1 h1).2]
  rw [if_pos (by simp only [List.length_append, List.length_cons]; omega)]
  rw [charAt_cons1]
  rw [if_pos ⟨by have := (hex_byte_facts c1 h1).2; unfold INVALID_DYNLIB_BYTE; omega,
    by have := (hex_byte_facts c2 h2).2; unfold INVALID_DYNLIB_BYTE; omega⟩]

theorem validToken_cases (t : List Char) (h : validToken t) :
    t = ['?'] ∨ t = ['?', '?'] ∨
      ∃ c1 c2, t = [c1, c2] ∧ funcIsHexDigit c1 = true ∧ funcIsHexDigit c2 = true := by
  rcases h with h | h | ⟨hlen, hx1, hx2⟩
  · exact Or.inl h
  · exact Or.inr (Or.inl h)
  · cases t with
    | nil => simp at hlen
    | cons a t2 =>
      cases t2 with
      | nil => simp at hlen
      | cons b t3 =>
        cases t3 with
        | nil =>
          exact Or.inr (Or.inr ⟨a, b, rfl, by simpa using hx1, by simpa using hx2⟩)
        | cons d t4 => simp at hlen

theorem renderTokens_singleton (t : List Char) : renderTokens [t] = t := by
  simp [renderTokens, List.intercalate, List.intersperse_singleton]

theorem renderTokens_cons_cons (t r : List Char) (rs : List (List Char)) :
    renderTokens (t :: r :: rs) = t ++ ' ' :: renderTokens (r :: rs) := by
  simp [renderTokens, List.intercalate, List.intersperse_cons_cons]

theorem processAux_render (toks : List (List Char)) :
    ∀ (pre : List Char) (fuel : Nat) (acc : List (Nat × Char)),
      (∀ t ∈ toks, validToken t) →
      (renderTokens toks).length ≤ fuel →
      ProcessStringPatternAux (pre ++ renderTokens toks) fuel pre.length acc =
        acc ++ toks.map tokenSem := by
  induction toks with
  | nil =>
    intro pre fuel acc _ _
    rw [show renderTokens [] = [] from rfl]
    simp only [List.map_nil, List.append_nil]
    exact processAux_at_end pre fuel pre.length acc (le_refl _)
  | cons t rest ih =>
    intro pre fuel acc hv hfuel
    have hvt := validToken_cases t (hv t (List.mem_cons_self t rest))
    cases rest with
    | nil =>
      rw [renderTokens_singleton]
      rw [renderTokens_singleton] at hfuel
      rcases hvt with h1 | h2 | ⟨c1, c2, h3, hx1, hx2⟩
      · subst h1
        cases fuel with
        | zero => simp at hfuel
        | succ f =>
          rw [processAux_wild_step pre [] f acc (by decide)]
          rw [processAux_at_end _ f (pre.length + 1) _ (by simp)]
          simp [tokenSem]
      · subst h2
        cases fuel with
        | zero => simp at hfuel
        | succ f =>
          rw [processAux_wild2_step pre [] f acc]
          rw [processAux_at_end _ f (pre.length + 2) _ (by simp)]
          simp [tokenSem]
      · subst h3
        cases fuel with
        | zero => simp at hfuel
        | succ f =>
          rw [processAux_hex_step pre [] c1 c2 f acc hx1 hx2]
          rw [processAux_at_end _ f (pre.length + 2) _ (by simp)]
          simp [tokenSem, (hex_ne_space_qmark c1 hx1).2]
    | cons r rs =>
      rw [renderTokens_cons_cons]
      rw [renderTokens_cons_cons] at hfuel
      have hvrest : ∀ t2 ∈ r :: rs, validToken t2 := fun t2 ht2 =>
        hv t2 (List.mem_cons_of_mem t ht2)
      rcases hvt with h1 | h2 | ⟨c1, c2, h3, hx1, hx2⟩
      · subst h1
        rw [show (['?'] : List Char) ++ ' ' :: renderTokens (r :: rs) =
          '?' :: ' ' :: renderTokens (r :: rs) from by simp]
        rw [show (['?'] : List Char) ++ ' ' :: renderTokens (r :: rs) =
          '?' :: ' ' :: renderTokens (r :: rs) from by simp] at hfuel
        cases fuel with
        | zero => simp at hfuel
        | succ f =>
          rw [processAux_wild_step pre (' ' :: renderTokens (r :: rs)) f acc
            (by rw [List.getD_cons_zero]; decide)]
          cases f with
          | zero =>
            simp only [List.length_cons] at hfuel
            omega
          | succ f2 =>
            rw [show pre ++ '?' :: ' ' :: renderTokens (r :: rs) =
              (pre ++ ['?']) ++ ' ' :: renderTokens (r :: rs) from by simp]
            rw [show pre.length + 1 = (pre ++ ['?']).length from by simp]
            rw [processAux_space_step (pre ++ ['?']) (renderTokens (r :: rs)) f2 _]
            rw [show (pre ++ ['?']) ++ ' ' :: renderTokens (r :: rs) =
              (pre ++ ['?', ' ']) ++ renderTokens (r :: rs) from by simp]
            rw [show (pre ++ ['?']).length + 1 = (pre ++ ['?', ' ']).length from by simp]
            rw [ih (pre ++ ['?', ' ']) f2 (acc ++ [(0, '?')]) hvrest
              (by simp only [List.length_cons] at hfuel; omega)]
            simp [tokenSem]
      · subst h2
        rw [show (['?', '?'] : List Char) ++ ' ' :: renderTokens (r :: rs) =
          '?' :: '?' :: ' ' :: renderTokens (r :: rs) from by simp]
        rw [show (['?', '?'] : List Char) ++ ' ' :: renderTokens (r :: rs) =
          '?' :: '?' :: ' ' :: renderTokens (r :: rs) from by simp] at hfuel
        cases fuel with
        | zero => simp at hfuel
        | succ f =>
          rw [processAux_wild2_step pre (' ' :: renderTokens (r :: rs)) f acc]
          cases f with
          | zero =>
            simp only [List.length_cons] at hfuel
            omega
          | succ f2 =>
            rw [show pre ++ '?' :: '?' :: ' ' :: renderTokens (r :: rs) =
              (pre ++ ['?', '?']) ++ ' ' :: renderTokens (r :: rs) from by simp]
            rw [show pre.length + 2 = (pre ++ ['?', '?']).length from by simp]
            rw [processAux_space_step (pre ++ ['?', '?']) (renderTokens (r :: rs)) f2 _]
            rw [show (pre ++ ['?', '?']) ++ ' ' :: renderTokens (r :: rs) =
              (pre ++ ['?', '?', ' ']) ++ renderTokens (r :: rs) from by simp]
            rw [show (pre ++ ['?', '?']).length + 1 = (pre ++ ['?', '?', ' ']).length from
              by simp]
            rw [ih (pre ++ ['?', '?', ' ']) f2 (acc ++ [(0, '?')]) hvrest
              (by simp only [List.length_cons] at hfuel; omega)]
            simp [tokenSem]
      · subst h3
        rw [show ([c1, c2] : List Char) ++ ' ' :: renderTokens (r :: rs) =
          c1 :: c2 :: ' ' :: renderTokens (r :: rs) from by simp]
        rw [show ([c1, c2] : List Char) ++ ' ' :: renderTokens (r :: rs) =
          c1 :: c2 :: ' ' :: renderTokens (r :: rs) from by simp] at hfuel
        cases fuel with
        | zero => simp at hfuel
        | succ f =>
          rw [processAux_hex_step pre (' ' :: renderTokens (r :: rs)) c1 c2 f acc hx1 hx2]
          cases f with
          | zero =>
            simp only [List.length_cons] at hfuel
            omega
          | succ f2 =>
            rw [show pre ++ c1 :: c2 :: ' ' :: renderTokens (r :: rs) =
              (pre ++ [c1, c2]) ++ ' ' :: renderTokens (r :: rs) from by simp]
            rw [show pre.length + 2 = (pre ++ [c1, c2]).length from by simp]
            rw [processAux_space_step (pre ++ [c1, c2]) (renderTokens (r :: rs)) f2 _]
            rw [show (pre ++ [c1, c2]) ++ ' ' :: renderTokens (r :: rs) =
              (pre ++ [c1, c2, ' ']) ++ renderTokens (r :: rs) from by simp]
            rw [show (pre ++ [c1, c2]).length + 1 = (pre ++ [c1, c2, ' ']).length from
              by simp]
            rw [ih (pre ++ [c1, c2, ' ']) f2 _ hvrest
              (by simp only [List.length_cons] at hfuel; omega)]
            simp [tokenSem, (hex_ne_space_qmark c1 hx1).2]

theorem parseAux_render (toks : List (List Char)) :
    ∀ (N : Nat) (pre : List Char) (fuel : Nat) (acc : List (Nat × Char)),
      (∀ t ∈ toks, validToken t) →
      (renderTokens toks).length ≤ fuel →
      acc.length + toks.length ≤ N →
      ParsePatternAux N (pre ++ renderTokens toks) fuel pre.length acc =
        acc ++ toks.map tokenSem := by
  induction toks with
  | nil =>
    intro N pre fuel acc _ _ _
    rw [show renderTokens [] = [] from rfl]
    simp only [List.map_nil, List.append_nil]
    exact parseAux_at_end N pre fuel pre.length acc (le_refl _)
  | cons t rest ih =>
    intro N pre fuel acc hv hfuel hN
    have hvt := validToken_cases t (hv t (List.mem_cons_self t rest))
    have hacc : acc.length < N := by
      simp only [List.length_cons] at hN
      omega
    cases rest with
    | nil =>
      rw [renderTokens_singleton]
      rw [renderTokens_singleton] at hfuel
      rcases hvt with h1 | h2 | ⟨c1, c2, h3, hx1, hx2⟩
      · subst h1
        cases fuel with
        | zero => simp at hfuel
        | succ f =>
          rw [parseAux_wild_step N pre [] f acc hacc (by decide)]
          rw [parseAux_at_end N _ f (pre.length + 2) _ (by simp)]
          simp [tokenSem]
      · subst h2
        cases fuel with
        | zero => simp at hfuel
        | succ f =>
          rw [parseAux_wild2_step N pre [] f acc hacc]
          rw [parseAux_at_end N _ f (pre.length + 3) _
            (by simp only [List.length_append, List.length_cons, List.length_nil]; omega)]
          simp [tokenSem]
      · subst h3
        cases fuel with
        | zero => simp at hfuel
        | succ f =>
          rw [parseAux_hex_step N pre [] c1 c2 f acc hacc hx1 hx2]
          rw [(hex_byte_facts c1 hx1).1, (hex_byte_facts c2 hx2).1]
          rw [parseAux_at_end N _ f (pre.length + 3) _
            (by simp only [List.length_append, List.length_cons, List.length_nil]; omega)]
          simp [tokenSem, (hex_ne_space_qmark c1 hx1).2]
    | cons r rs =>
      rw [renderTokens_cons_cons]
      rw [renderTokens_cons_cons] at hfuel
      have hvrest : ∀ t2 ∈ r :: rs, validToken t2 := fun t2 ht2 =>
        hv t2 (List.mem_cons_of_mem t ht2)
      rcases hvt with h1 | h2 | ⟨c1, c2, h3, hx1, hx2⟩
      · subst h1
        rw [show (['?'] : List Char) ++ ' ' :: renderTokens (r :: rs) =
          '?' :: ' ' :: renderTokens (r :: rs) from by simp]
        rw [show (['?'] : List Char) ++ ' ' :: renderTokens (r :: rs) =
          '?' :: ' ' :: renderTokens (r :: rs) from by simp] at hfuel
        cases fuel with
        | zero => simp at hfuel
        | succ f =>
          rw [parseAux_wild_step N pre (' ' :: renderTokens (r :: rs)) f acc hacc
            (by rw [List.getD_cons_zero]; decide)]
          rw [show pre ++ '?' :: ' ' :: renderTokens (r :: rs) =
            (pre ++ ['?', ' ']) ++ renderTokens (r :: rs) from by simp]
          rw [show pre.length + 2 = (pre ++ ['?', ' ']).length from by simp]
          rw [ih N (pre ++ ['?', ' ']) f (acc ++ [(0, '?')]) hvrest
            (by simp only [List.length_cons] at hfuel; omega)
            (by simp only [List.length_cons, List.length_append,
              List.length_singleton, List.length_nil] at hN ⊢; omega)]
          simp [tokenSem]
      · subst h2
        rw [show (['?', '?'] : List Char) ++ ' ' :: renderTokens (r :: rs) =
          '?' :: '?' :: ' ' :: renderTokens (r :: rs) from by simp]
        rw [show (['?', '?'] : List Char) ++ ' ' :: renderTokens (r :: rs) =
          '?' :: '?' :: ' ' :: renderTokens (r :: rs) from by simp] at hfuel
        cases fuel with
        | zero => simp at hfuel
        | succ f =>
          rw [parseAux_wild2_step N pre (' ' :: renderTokens (r :: rs)) f acc hacc]
          rw [show pre ++ '?' :: '?' :: ' ' :: renderTokens (r :: rs) =
            (pre ++ ['?', '?', ' ']) ++ renderTokens (r :: rs) from by simp]
          rw [show pre.length + 3 = (pre ++ ['?', '?', ' ']).length from by simp]
          rw [ih N (pre ++ ['?', '?', ' ']) f (acc ++ [(0, '?')]) hvrest
            (by simp only [List.length_cons] at hfuel; omega)
            (by simp only [List.length_cons, List.length_append,
              List.length_singleton, List.length_nil] at hN ⊢; omega)]
          simp [tokenSem]
      · subst h3
        rw [show ([c1, c2] : List Char) ++ ' ' :: renderTokens (r :: rs) =
          c1 :: c2 :: ' ' :: renderTokens (r :: rs) from by simp]
        rw [show ([c1, c2] : List Char) ++ ' ' :: renderTokens (r :: rs) =
          c1 :: c2 :: ' ' :: renderTokens (r :: rs) from by simp] at hfuel
        cases fuel with
        | zero => simp at hfuel
        | succ f =>
          rw [parseAux_hex_step N pre (' ' :: renderTokens (r :: rs)) c1 c2 f acc hacc
            hx1 hx2]
          rw [(hex_byte_facts c1 hx1).1, (hex_byte_facts c2 hx2).1]
          rw [show pre ++ c1 :: c2 :: ' ' :: renderTokens (r :: rs) =
            (pre ++ [c1, c2, ' ']) ++ renderTokens (r :: rs) from by simp]
          rw [show pre.length + 3 = (pre ++ [c1, c2, ' ']).length from by simp]
          rw [ih N (pre ++ [c1, c2, ' ']) f _ hvrest
            (by simp only [List.length_cons] at hfuel; omega)
            (by simp only [List.length_cons, List.length_append,
              List.length_singleton, List.length_nil] at hN ⊢; omega)]
          simp [tokenSem, (hex_ne_space_qmark c1 hx1).2]

/-- C3 (confirmed): on every pattern source string accepted by the grammar —
tokens that are two-digit hex bytes or `?`/`??` wildcards joined by single
spaces — whose token count fits the runtime parser's bound `N`, the
compile-time parser `ParseStringPattern`/`ProcessStringPattern` and the
runtime parser `ParsePattern` produce identical write sequences: the same
number of cells (the pattern length), equal byte values and equal mask
characters cell for cell, both agreeing with the token semantics. -/
theorem parsers_agree_on_grammar (N : Nat) (toks : List (List Char))
    (hv : ∀ t ∈ toks, validToken t) (hN : toks.length ≤ N) :
    ProcessStringPattern (renderTokens toks) = ParsePattern N (renderTokens toks) ∧
    ProcessStringPattern (renderTokens toks) = toks.map tokenSem ∧
    (ProcessStringPattern (renderTokens toks)).length = toks.length := by
  have h1 : ProcessStringPattern (renderTokens toks) = toks.map tokenSem := by
    unfold ProcessStringPattern
    have := processAux_render toks [] (renderTokens toks).length [] hv (le_refl _)
    simpa using this
  have h2 : ParsePattern N (renderTokens toks) = toks.map tokenSem := by
    unfold ParsePattern
    have := parseAux_render toks N [] ((renderTokens toks).length + 1) [] hv
      (by omega) (by simpa using hN)
    simpa using this
  refine ⟨by rw [h1, h2], h1, by rw [h1]; simp⟩

/-- C3 witness: the pattern string `"48 8B ?? 41"`. -/
theorem parsers_agree_on_grammar_witness :
    ProcessStringPattern
        (renderTokens [['4', '8'], ['8', 'B'], ['?', '?'], ['4', '1']]) =
      ParsePattern 127
        (renderTokens [['4', '8'], ['8', 'B'], ['?', '?'], ['4', '1']]) ∧
    ProcessStringPattern
        (renderTokens [['4', '8'], ['8', 'B'], ['?', '?'], ['4', '1']]) =
      [['4', '8'], ['8', 'B'], ['?', '?'], ['4', '1']].map tokenSem ∧
    (ProcessStringPattern
        (renderTokens [['4', '8'], ['8', 'B'], ['?', '?'], ['4', '1']])).length =
      [['4', '8'], ['8', 'B'], ['?', '?'], ['4', '1']].length :=
  parsers_agree_on_grammar 127 [['4', '8'], ['8', 'B'], ['?', '?'], ['4', '1']]
    (by decide) (by decide)

end DynLibUtils
